import Mathlib

/-!
The digest client handle of md5-simd.

A shallow embedding of `md5-digest_amd64.go`: the per-stream handle `md5Digest`
with its operations `Reset`, `Write`, `write`, `Close`, `Sum` and `sendBlock`.

* Byte slices are lists of bytes; a slice expression that Go would reject at run
  time is a panic of the model.
* The two channels of the handle are an output trace: every operation returns the
  sends it made, in order (`Event`). The payload of a message is the value the
  slice had when it was sent.
* `uint64` fields are natural numbers reduced modulo `2 ^ 64` where the code can
  overflow; `int` values are natural numbers (they are never negative here).
-/

namespace md5simd

abbrev Byte := UInt8

/-- Modelled from the spec: the constant `BlockSize` is declared in `md5.go`, which is
not among the sources; the spec fixes the block of the algorithm at 64 bytes. -/
def BlockSize : Nat := 64

/-- Modelled from the spec: the constant `Size` is declared in `md5.go`, which is not
among the sources; the digest of the algorithm has 16 bytes. -/
def Size : Nat := 16

/-- Modelled from the spec: the struct `blockInput` is declared in `md5-server_amd64.go`,
which is not among the sources. The fields are those the handle fills in: the stream
identity, the payload slice, the reset marker, and the completion channel (`sumCh` is
`true` when the message carries one, `false` for the nil channel). -/
structure blockInput where
  uid : Nat
  msg : List Byte
  reset : Bool
  sumCh : Bool
deriving DecidableEq, Repr

/-- Modelled from the spec: the struct `sumResult` is declared in `md5-server_amd64.go`,
which is not among the sources. Its one field is the array `digest [Size]byte`. -/
structure sumResult where
  digest : List Byte
  size_eq : digest.length = Size

/-- The handle of one stream. `blocksCh` is `true` for a non-nil channel and `false`
for nil; the channel `cycleServer` is never compared or reassigned and only shows in
the trace. `x` is the array `[BlockSize]byte`. -/
structure md5Digest where
  uid : Nat
  blocksCh : Bool
  x : List Byte
  nx : Nat
  len : Nat
deriving DecidableEq, Repr

/-- What a handle does to its channels. -/
inductive Event where
  /-- The send `d.blocksCh <- bi`. -/
  | blocksCh (bi : blockInput)
  /-- The send `d.cycleServer <- uid`. -/
  | cycleServer (uid : Nat)
  /-- The call `close(d.blocksCh)`. -/
  | closeBlocksCh
deriving DecidableEq, Repr

/-- How a call ends: it returns a value, it panics, or it blocks for ever on a send to
a nil channel. -/
inductive Ret (α : Type) where
  | returned (v : α)
  | panicked (msg : String)
  | blocked
deriving DecidableEq, Repr

/-- The effect of a call: the handle afterwards, the sends made, and how it ended. -/
structure Step (α : Type) where
  d : md5Digest
  sent : List Event
  ret : Ret α
deriving DecidableEq, Repr

/-- Sequencing of two pieces of a function body: the second runs on the handle the
first one left, unless the first panicked or blocked. -/
def Step.andThen {α β : Type} (s : Step α) (k : md5Digest → α → Step β) : Step β :=
  match s.ret with
  | .returned v => ⟨(k s.d v).d, s.sent ++ (k s.d v).sent, (k s.d v).ret⟩
  | .panicked m => ⟨s.d, s.sent, .panicked m⟩
  | .blocked => ⟨s.d, s.sent, .blocked⟩

/-- The run-time panic of an out-of-range slice expression. -/
def sliceBounds : String := "slice bounds out of range"

/-- Go's bit clear `a &^ b` (AND NOT), on natural numbers. -/
def bitClear (a b : Nat) : Nat := a &&& (a ^^^ b)

/-- Go's `copy(dst[off:], src)` for `off ≤ len(dst)`: the array afterwards and the
number of bytes copied, `min(len(dst) - off, len(src))`. -/
def copyAt (dst : List Byte) (off : Nat) (src : List Byte) : List Byte × Nat :=
  (dst.take off ++ src.take (min (dst.length - off) src.length)
      ++ dst.drop (off + min (dst.length - off) src.length),
    min (dst.length - off) src.length)

/-- The call `binary.LittleEndian.PutUint64(b, v)` for `len(b) ≥ 8`: byte `i` of the first
eight is `byte(v >> (8*i))`, the rest of `b` is kept. -/
def putUint64 (b : List Byte) (v : Nat) : List Byte :=
  (List.range 8).map (fun i => UInt8.ofNat (v >>> (8 * i))) ++ b.drop 8

/-- The method `sendBlock`: the `select` has one case, so it waits for the send on `blocksCh`
(for ever when the channel is nil) and then notifies the server on `cycleServer`. -/
def sendBlock (d : md5Digest) (bi : blockInput) : Step Unit :=
  if d.blocksCh then ⟨d, [Event.blocksCh bi, Event.cycleServer d.uid], .returned ()⟩
  else ⟨d, [], .blocked⟩

/-- The method `Reset`. -/
def Reset (d : md5Digest) : Step Unit :=
  if !d.blocksCh then ⟨d, [], .panicked "reset after close"⟩
  else
    let d := { d with nx := 0 }
    let d := { d with len := 0 }
    sendBlock d { uid := d.uid, msg := [], reset := true, sumCh := false }

/-- The unexported `write`: the returned pair is `(nn, err)`. -/
def write (d : md5Digest) (p : List Byte) : Step (Nat × Option String) :=
  let nn := p.length
  let d := { d with len := (d.len + nn) % 2 ^ 64 }
  let s1 : Step (List Byte) :=
    if 0 < d.nx then
      if d.x.length < d.nx then ⟨d, [], .panicked sliceBounds⟩
      else
        let c := copyAt d.x d.nx p
        let d := { d with x := c.1, nx := d.nx + c.2 }
        if d.nx = BlockSize then
          (sendBlock d { uid := d.uid, msg := d.x, reset := false, sumCh := false }).andThen
            fun d _ => ⟨{ d with nx := 0 }, [], .returned (p.drop c.2)⟩
        else ⟨d, [], .returned (p.drop c.2)⟩
    else ⟨d, [], .returned p⟩
  s1.andThen fun d p =>
    let s2 : Step (List Byte) :=
      if BlockSize ≤ p.length then
        let n := bitClear p.length (BlockSize - 1)
        (sendBlock d { uid := d.uid, msg := p.take n, reset := false, sumCh := false }).andThen
          fun d _ => ⟨d, [], .returned (p.drop n)⟩
      else ⟨d, [], .returned p⟩
    s2.andThen fun d p =>
      if 0 < p.length then
        ⟨{ d with x := (copyAt d.x 0 p).1, nx := (copyAt d.x 0 p).2 }, [], .returned (nn, none)⟩
      else ⟨d, [], .returned (nn, none)⟩

/-- The chunking loop of `Write`, one iteration for each unit of fuel; `nn` is the
running result. `none` means the fuel ran out before the loop left. -/
def WriteLoop (internalBlockSize : Nat) :
    Nat → md5Digest → List Byte → Nat → Option (Step (Nat × Option String))
  | 0, _, _, _ => none
  | fuel + 1, d, p, nn =>
    let l := if internalBlockSize < p.length then internalBlockSize else p.length
    let s := write d (p.take l)
    match s.ret with
    | .returned (nnn, none) =>
      if (p.drop l).length = 0 then some ⟨s.d, s.sent, .returned (nn + nnn, none)⟩
      else
        (WriteLoop internalBlockSize fuel s.d (p.drop l) (nn + nnn)).map
          fun t => ⟨t.d, s.sent ++ t.sent, t.ret⟩
    | .returned (_, some err) => some ⟨s.d, s.sent, .returned (nn, some err)⟩
    | .panicked m => some ⟨s.d, s.sent, .panicked m⟩
    | .blocked => some ⟨s.d, s.sent, .blocked⟩

/-- The method `Write`. The constant `internalBlockSize` is declared in a file that is not among
the sources and is a parameter. The loop gets `len(p) + 1` units of fuel: with
`internalBlockSize ≥ 1` every iteration but the last consumes at least one byte, so
the fuel is never used up; with `internalBlockSize = 0` and a non-empty `p` the loop
of the source never leaves and the result is `none`. -/
def Write (internalBlockSize : Nat) (d : md5Digest) (p : List Byte) :
    Option (Step (Nat × Option String)) :=
  if !d.blocksCh then some ⟨d, [], .returned (0, some "md5Digest closed")⟩
  else WriteLoop internalBlockSize (p.length + 1) d p 0

/-- The method `Close`. -/
def Close (d : md5Digest) : Step Unit :=
  if d.blocksCh then ⟨{ d with blocksCh := false }, [Event.closeBlocksCh], .returned ()⟩
  else ⟨d, [], .returned ()⟩

/-- The number of bytes of `tmp` that `Sum` appends as padding. -/
def padCount (length : Nat) : Nat :=
  if length % 64 < 56 then 56 - length % 64 else 64 + 56 - length % 64

/-- The slice `trail` of `Sum` when it reaches the alignment check, for the handle
fields `x`, `nx` and `len`. -/
def sumTrail (d : md5Digest) : List Byte :=
  let trail := d.x.take d.nx
  let length := d.len
  let tmp : List Byte := 0x80 :: List.replicate 63 0
  let trail := trail ++ tmp.take (padCount length)
  let length := (length <<< 3) % 2 ^ 64
  let tmp := putUint64 tmp length
  trail ++ tmp.take 8

/-- The method `Sum`. The value `sum` is what the server delivers on the completion channel
`sumCh`, which `Sum` waits for after its send. -/
def Sum (d : md5Digest) (in_ : List Byte) (sum : sumResult) : Step (List Byte) :=
  if !d.blocksCh then ⟨d, [], .panicked "sum after close"⟩
  else if d.x.length < d.nx then ⟨d, [], .panicked sliceBounds⟩
  else if 64 < padCount d.len then ⟨d, [], .panicked sliceBounds⟩
  else if (sumTrail d).length % BlockSize ≠ 0 then
    ⟨d, [], .panicked ("internal error: sum block was not aligned. len="
      ++ toString (sumTrail d).length ++ ", nx=" ++ toString d.nx)⟩
  else
    (sendBlock d { uid := d.uid, msg := sumTrail d, reset := false, sumCh := true }).andThen
      fun d _ => ⟨d, [], .returned (in_ ++ sum.digest)⟩

/-! ## The reference digest and the server lane

`crypto/md5` and the block compression primitive are not part of the repository. The
definitions below are the algorithm of RFC 1321; the theorems `md5Sum_golden_*` check
them on entries of the table `golden` of `md5-server_test.go`. -/

/-- The accumulator of the algorithm: four 32-bit words. -/
structure md5State where
  a : Nat
  b : Nat
  c : Nat
  d : Nat
deriving DecidableEq, Repr

/-- The initial state of MD5 (RFC 1321, 3.3). -/
def md5Init : md5State := ⟨0x67452301, 0xefcdab89, 0x98badcfe, 0x10325476⟩

/-- The table `T[i] = floor(2^32 * |sin(i + 1)|)` of RFC 1321, 3.4. -/
def md5T : List Nat :=
  [0xd76aa478, 0xe8c7b756, 0x242070db, 0xc1bdceee, 0xf57c0faf, 0x4787c62a, 0xa8304613, 0xfd469501,
   0x698098d8, 0x8b44f7af, 0xffff5bb1, 0x895cd7be, 0x6b901122, 0xfd987193, 0xa679438e, 0x49b40821,
   0xf61e2562, 0xc040b340, 0x265e5a51, 0xe9b6c7aa, 0xd62f105d, 0x02441453, 0xd8a1e681, 0xe7d3fbc8,
   0x21e1cde6, 0xc33707d6, 0xf4d50d87, 0x455a14ed, 0xa9e3e905, 0xfcefa3f8, 0x676f02d9, 0x8d2a4c8a,
   0xfffa3942, 0x8771f681, 0x6d9d6122, 0xfde5380c, 0xa4beea44, 0x4bdecfa9, 0xf6bb4b60, 0xbebfbc70,
   0x289b7ec6, 0xeaa127fa, 0xd4ef3085, 0x04881d05, 0xd9d4d039, 0xe6db99e5, 0x1fa27cf8, 0xc4ac5665,
   0xf4292244, 0x432aff97, 0xab9423a7, 0xfc93a039, 0x655b59c3, 0x8f0ccc92, 0xffeff47d, 0x85845dd1,
   0x6fa87e4f, 0xfe2ce6e0, 0xa3014314, 0x4e0811a1, 0xf7537e82, 0xbd3af235, 0x2ad7d2bb, 0xeb86d391]

/-- The rotation amounts of the 64 operations. -/
def md5Shift : List Nat :=
  [7, 12, 17, 22, 7, 12, 17, 22, 7, 12, 17, 22, 7, 12, 17, 22,
   5, 9, 14, 20, 5, 9, 14, 20, 5, 9, 14, 20, 5, 9, 14, 20,
   4, 11, 16, 23, 4, 11, 16, 23, 4, 11, 16, 23, 4, 11, 16, 23,
   6, 10, 15, 21, 6, 10, 15, 21, 6, 10, 15, 21, 6, 10, 15, 21]

/-- Rotation of a 32-bit word to the left. -/
def rotl32 (x s : Nat) : Nat := ((x <<< s) ||| (x >>> (32 - s))) % 2 ^ 32

/-- The little-endian value of a run of bytes. -/
def leValue (bs : List Byte) : Nat := bs.foldr (fun b acc => b.toNat + 256 * acc) 0

/-- The sixteen 32-bit words of a 64-byte block. -/
def blockWords (blk : List Byte) : List Nat :=
  (List.range 16).map fun i => leValue ((blk.drop (4 * i)).take 4)

/-- Operation `i` of the 64 operations of the compression function on the words `w`. -/
def md5Op (w : List Nat) (s : md5State) (i : Nat) : md5State :=
  let nb := s.b ^^^ 0xffffffff
  let nd := s.d ^^^ 0xffffffff
  let f :=
    if i < 16 then (s.b &&& s.c) ||| (nb &&& s.d)
    else if i < 32 then (s.d &&& s.b) ||| (nd &&& s.c)
    else if i < 48 then s.b ^^^ s.c ^^^ s.d
    else s.c ^^^ (s.b ||| nd)
  let g :=
    if i < 16 then i
    else if i < 32 then (5 * i + 1) % 16
    else if i < 48 then (3 * i + 5) % 16
    else (7 * i) % 16
  let t := (s.a + f + md5T.getD i 0 + w.getD g 0) % 2 ^ 32
  ⟨s.d, (s.b + rotl32 t (md5Shift.getD i 0)) % 2 ^ 32, s.b, s.c⟩

/-- Modelled from the spec: the block compression primitive is an external collaborator
of the repository; this is the compression function of MD5 (RFC 1321, 3.4) on one
64-byte block. -/
def md5Block (s : md5State) (blk : List Byte) : md5State :=
  let r := (List.range 64).foldl (md5Op (blockWords blk)) s
  ⟨(s.a + r.a) % 2 ^ 32, (s.b + r.b) % 2 ^ 32, (s.c + r.c) % 2 ^ 32, (s.d + r.d) % 2 ^ 32⟩

/-- The compression function over the first `k` 64-byte blocks of `bs`, in order. -/
def md5BlocksN : Nat → md5State → List Byte → md5State
  | 0, s, _ => s
  | k + 1, s, bs => md5BlocksN k (md5Block s (bs.take 64)) (bs.drop 64)

/-- The compression function over all complete 64-byte blocks of `bs`, in order. -/
def md5Blocks (s : md5State) (bs : List Byte) : md5State :=
  md5BlocksN (bs.length / 64) s bs

/-- The four bytes of a 32-bit word, least significant first. -/
def leBytes32 (v : Nat) : List Byte :=
  (List.range 4).map fun i => UInt8.ofNat (v >>> (8 * i))

/-- The 16 digest bytes of a state. -/
def md5Encode (s : md5State) : List Byte :=
  leBytes32 s.a ++ leBytes32 s.b ++ leBytes32 s.c ++ leBytes32 s.d

/-- The number of zero bytes after the byte `0x80` that bring a message of `L` bytes to
a length of 56 modulo 64. -/
def zeroPadLen (L : Nat) : Nat := (64 + 55 - L % 64) % 64

/-- The padded message of MD5: `m`, the byte `0x80`, zero bytes until the length is 56
modulo 64, then the length of `m` in bits modulo `2 ^ 64` as eight little-endian bytes. -/
def md5Pad (m : List Byte) : List Byte :=
  m ++ [(0x80 : Byte)] ++ List.replicate (zeroPadLen m.length) (0 : Byte)
    ++ (List.range 8).map (fun i => UInt8.ofNat (((8 * m.length) % 2 ^ 64) >>> (8 * i)))

/-- Modelled from the spec: the trusted reference implementation (`crypto/md5`) is
not part of the repository; this is the digest of RFC 1321, the compression function
from the initial state over the blocks of the padded message. -/
def md5Sum (m : List Byte) : List Byte :=
  md5Encode (md5Blocks md5Init (md5Pad m))

/-- Modelled from the spec: the constructor `NewMd5` is in `md5-server_amd64.go`, which
is not among the sources. A freshly constructed handle has the identity the server
assigned, an open intake channel, and the zero value in `x`, `nx` and `len`. -/
def NewMd5 (uid : Nat) : md5Digest :=
  ⟨uid, true, List.replicate BlockSize 0, 0, 0⟩

/-- Modelled from the spec: the scheduling server is in `md5-server_amd64.go`, which is
not among the sources. This is the lane of the stream `uid` seen through the messages
of the intake channel, in the order sent: a reset marker returns the accumulator to the
initial state, a payload is compressed block by block into the accumulator, a payload
whose length is not a multiple of the block size is a fatal error (`none`), and the
first message with a completion channel delivers the digest of the accumulator after
its payload. `none` is also the answer when no message asks for a digest. -/
def serverLane (uid : Nat) : md5State → List Event → Option (List Byte)
  | _, [] => none
  | acc, Event.blocksCh bi :: rest =>
    if bi.uid ≠ uid then serverLane uid acc rest
    else if bi.reset then serverLane uid md5Init rest
    else if bi.msg.length % BlockSize ≠ 0 then none
    else if bi.sumCh then some (md5Encode (md5Blocks acc bi.msg))
    else serverLane uid (md5Blocks acc bi.msg) rest
  | acc, Event.cycleServer _ :: rest => serverLane uid acc rest
  | acc, Event.closeBlocksCh :: rest => serverLane uid acc rest

/-- The payload bytes of the block messages of a trace, in the order sent. -/
def payloads : List Event → List Byte
  | [] => []
  | Event.blocksCh bi :: rest => bi.msg ++ payloads rest
  | Event.cycleServer _ :: rest => payloads rest
  | Event.closeBlocksCh :: rest => payloads rest

/-- A run of `Write` calls, one for each element of `ps` in order: the handle afterwards
and all the sends made, provided every call returns with a nil error. -/
def Writes (internalBlockSize : Nat) : md5Digest → List (List Byte) → Option (md5Digest × List Event)
  | d, [] => some (d, [])
  | d, p :: ps =>
    match Write internalBlockSize d p with
    | some ⟨d1, evs, .returned (_, none)⟩ =>
      (Writes internalBlockSize d1 ps).map fun r => (r.1, evs ++ r.2)
    | _ => none

/-- The invariant of the type and of the buffer index: `x` has `BlockSize` bytes and
`nx` is smaller than `BlockSize`. -/
def WellFormed (d : md5Digest) : Prop :=
  d.x.length = BlockSize ∧ d.nx < BlockSize

instance (d : md5Digest) : Decidable (WellFormed d) := by
  unfold WellFormed; infer_instance

/-- Every event of the trace is a data message of `uid` (no reset marker, no completion
channel) with a non-empty payload of whole blocks, or a cycle notification of `uid`. -/
def DataMsgs (uid : Nat) (evs : List Event) : Prop :=
  ∀ e ∈ evs, e = Event.cycleServer uid ∨
    ∃ msg, e = Event.blocksCh ⟨uid, msg, false, false⟩ ∧ msg ≠ [] ∧ msg.length % BlockSize = 0

/-- The handle states that calls of `Write`, `Reset`, `Sum` and `Close` reach from a
freshly constructed handle. -/
inductive Reachable (internalBlockSize : Nat) : md5Digest → Prop where
  | fresh (uid : Nat) : Reachable internalBlockSize (NewMd5 uid)
  | write {d : md5Digest} (p : List Byte) (s : Step (Nat × Option String)) :
      Reachable internalBlockSize d → Write internalBlockSize d p = some s →
      Reachable internalBlockSize s.d
  | reset {d : md5Digest} : Reachable internalBlockSize d → Reachable internalBlockSize (Reset d).d
  | sum {d : md5Digest} (in_ : List Byte) (sum : sumResult) :
      Reachable internalBlockSize d → Reachable internalBlockSize (Sum d in_ sum).d
  | close {d : md5Digest} : Reachable internalBlockSize d → Reachable internalBlockSize (Close d).d

/-- The first `if` of `write` (the buffer is not empty), as a piece of its own for the
proofs: `write_eq` shows `write` is the three pieces in sequence. -/
def writeFill (d : md5Digest) (p : List Byte) : Step (List Byte) :=
  if 0 < d.nx then
    if d.x.length < d.nx then ⟨d, [], .panicked sliceBounds⟩
    else
      let c := copyAt d.x d.nx p
      let d := { d with x := c.1, nx := d.nx + c.2 }
      if d.nx = BlockSize then
        (sendBlock d { uid := d.uid, msg := d.x, reset := false, sumCh := false }).andThen
          fun d _ => ⟨{ d with nx := 0 }, [], .returned (p.drop c.2)⟩
      else ⟨d, [], .returned (p.drop c.2)⟩
  else ⟨d, [], .returned p⟩

/-- The second `if` of `write` (at least one whole block is left). -/
def writeBulk (d : md5Digest) (p : List Byte) : Step (List Byte) :=
  if BlockSize ≤ p.length then
    let n := bitClear p.length (BlockSize - 1)
    (sendBlock d { uid := d.uid, msg := p.take n, reset := false, sumCh := false }).andThen
      fun d _ => ⟨d, [], .returned (p.drop n)⟩
  else ⟨d, [], .returned p⟩

/-- The third `if` of `write` (bytes are left for the buffer) and the return. -/
def writeRest (nn : Nat) (d : md5Digest) (p : List Byte) : Step (Nat × Option String) :=
  if 0 < p.length then
    ⟨{ d with x := (copyAt d.x 0 p).1, nx := (copyAt d.x 0 p).2 }, [], .returned (nn, none)⟩
  else ⟨d, [], .returned (nn, none)⟩

/-- What a call of `write` or `Write` with input `p` and result `nn` did when it ended
in `s` from the open handle `d`: it returned `(nn, nil)`, kept the identity and the
channel, advanced the byte counter, kept the buffer well formed, and the payloads sent
followed by the buffered bytes are the bytes buffered before followed by `p`. -/
structure Wrote (d : md5Digest) (p : List Byte) (nn : Nat) (s : Step (Nat × Option String)) :
    Prop where
  ret : s.ret = .returned (nn, none)
  uid : s.d.uid = d.uid
  blocksCh : s.d.blocksCh = true
  len : s.d.len = (d.len + p.length) % 2 ^ 64
  wf : WellFormed s.d
  stream : payloads s.sent ++ s.d.x.take s.d.nx = d.x.take d.nx ++ p
  msgs : DataMsgs d.uid s.sent

/-- Two handles that agree on everything but the bytes of `x` from index `nx` on, which
no operation reads before it overwrites them. -/
structure SameStream (d e : md5Digest) : Prop where
  uid : d.uid = e.uid
  blocksCh : d.blocksCh = e.blocksCh
  nx : d.nx = e.nx
  len : d.len = e.len
  buffered : d.x.take d.nx = e.x.take e.nx

/-- The bytes of the golden entry "For every action there is an equal and opposite
government program." of the test file. -/
def goldenAction : List Byte :=
  [0x46, 0x6f, 0x72, 0x20, 0x65, 0x76, 0x65, 0x72, 0x79, 0x20, 0x61, 0x63,
   0x74, 0x69, 0x6f, 0x6e, 0x20, 0x74, 0x68, 0x65, 0x72, 0x65, 0x20, 0x69,
   0x73, 0x20, 0x61, 0x6e, 0x20, 0x65, 0x71, 0x75, 0x61, 0x6c, 0x20, 0x61,
   0x6e, 0x64, 0x20, 0x6f, 0x70, 0x70, 0x6f, 0x73, 0x69, 0x74, 0x65, 0x20,
   0x67, 0x6f, 0x76, 0x65, 0x72, 0x6e, 0x6d, 0x65, 0x6e, 0x74, 0x20, 0x70,
   0x72, 0x6f, 0x67, 0x72, 0x61, 0x6d, 0x2e]

/-- The block messages of a trace, in the order sent. -/
def blockMsgs : List Event → List blockInput
  | [] => []
  | Event.blocksCh bi :: rest => bi :: blockMsgs rest
  | Event.cycleServer _ :: rest => blockMsgs rest
  | Event.closeBlocksCh :: rest => blockMsgs rest

/-- The uids of the cycle notifications of a trace, in the order sent. -/
def cycleMsgs : List Event → List Nat
  | [] => []
  | Event.blocksCh _ :: rest => cycleMsgs rest
  | Event.cycleServer uid :: rest => uid :: cycleMsgs rest
  | Event.closeBlocksCh :: rest => cycleMsgs rest

/-- The sends of a trace: the trace without the closing of the channel. -/
def sends : List Event → List Event
  | [] => []
  | Event.closeBlocksCh :: rest => sends rest
  | e :: rest => e :: sends rest

/-- The trace in which each of the messages `bis`, in order, is followed by one cycle
notification of `uid`. -/
def pairsOf (uid : Nat) : List blockInput → List Event
  | [] => []
  | bi :: rest => Event.blocksCh bi :: Event.cycleServer uid :: pairsOf uid rest

/-- The sends of the trace are pairs, a block message that carries `uid` and then one
cycle notification of `uid`, and nothing else. -/
def PairTrace (uid : Nat) (evs : List Event) : Prop :=
  sends evs = pairsOf uid (blockMsgs evs) ∧ ∀ bi ∈ blockMsgs evs, bi.uid = uid

/-- The block messages of one call of `write` on an open handle, spelled out: the
completed buffer block if the input completes it, then the whole blocks of what is left
of the input as one message. -/
def writeMsgs (d : md5Digest) (p : List Byte) : List blockInput :=
  (if 0 < d.nx ∧ 64 - d.nx ≤ p.length then
      [⟨d.uid, d.x.take d.nx ++ p.take (64 - d.nx), false, false⟩]
    else []) ++
  (if 64 ≤ (if 0 < d.nx then p.drop (64 - d.nx) else p).length then
      [⟨d.uid, (if 0 < d.nx then p.drop (64 - d.nx) else p).take
        ((if 0 < d.nx then p.drop (64 - d.nx) else p).length / 64 * 64), false, false⟩]
    else [])

/-- One call on a handle. -/
inductive Op where
  | write (p : List Byte)
  | reset
  | sum (in_ : List Byte) (sum : sumResult)
  | close

/-- A handle in use: the handle, all the sends made so far, and the bytes it accepted
since it was constructed or last reset (a record of the history, not a field). -/
structure Run where
  d : md5Digest
  sent : List Event
  written : List Byte
deriving DecidableEq, Repr

/-- The invariant of a run: the buffer is well formed, the byte counter is the number
of bytes accepted modulo `2 ^ 64`, and the bytes accepted are whole blocks followed by
the buffered bytes `x[:nx]`. -/
def RunInv (r : Run) : Prop :=
  WellFormed r.d ∧ r.d.len = r.written.length % 2 ^ 64 ∧
    ∃ pre, r.written = pre ++ r.d.x.take r.d.nx ∧ pre.length % 64 = 0

/-- One call in a run. A call that panics leaves the handle to the next call, as after
a `recover`; a `Write` that does not return ends the run (`none`). Bytes are accepted
by `Write` on an open handle, and the record is emptied by `Reset` on an open handle. -/
def stepOp (internalBlockSize : Nat) (r : Run) : Op → Option Run
  | Op.write p =>
    (Write internalBlockSize r.d p).map fun s =>
      ⟨s.d, r.sent ++ s.sent, if r.d.blocksCh then r.written ++ p else r.written⟩
  | Op.reset =>
    some ⟨(Reset r.d).d, r.sent ++ (Reset r.d).sent, if r.d.blocksCh then [] else r.written⟩
  | Op.sum in_ sum => some ⟨(Sum r.d in_ sum).d, r.sent ++ (Sum r.d in_ sum).sent, r.written⟩
  | Op.close => some ⟨(Close r.d).d, r.sent ++ (Close r.d).sent, r.written⟩

/-- A sequence of calls, in order. -/
def runOps (internalBlockSize : Nat) : Run → List Op → Option Run
  | r, [] => some r
  | r, op :: ops =>
    match stepOp internalBlockSize r op with
    | some r1 => runOps internalBlockSize r1 ops
    | none => none

/-- A sample sequence of calls: `Write` of 66 bytes, `Sum`, `Reset`, `Write` of one
byte, `Close`. -/
def sampleOps : List Op :=
  [Op.write (List.replicate 66 0x61), Op.sum [] ⟨List.replicate 16 0, rfl⟩, Op.reset,
    Op.write [0x62], Op.close]

/-- The run in which `sampleOps` ends on a freshly constructed handle with uid 1. -/
def sampleRun : Run :=
  ⟨⟨1, false, [0x62, 0x61] ++ List.replicate 62 0, 1, 1⟩,
    [Event.blocksCh ⟨1, List.replicate 64 0x61, false, false⟩, Event.cycleServer 1,
      Event.blocksCh ⟨1, [0x61, 0x61, 0x80] ++ List.replicate 53 0
        ++ [0x10, 0x02, 0, 0, 0, 0, 0, 0], false, true⟩,
      Event.cycleServer 1,
      Event.blocksCh ⟨1, [], true, false⟩, Event.cycleServer 1,
      Event.closeBlocksCh],
    [0x62]⟩

/-- The number of iterations of the loop of `Write` on an input of `n` bytes,
`max(1, ceil(n / internalBlockSize))`. -/
def loopIterations (internalBlockSize n : Nat) : Nat :=
  max 1 ((n + internalBlockSize - 1) / internalBlockSize)

/-- The chunking loop of `Write` with a record of the chunks `p[:l]` that it passes to
`write`, one for each iteration, in order. `WriteLoopChunks_fst` shows that it is the
loop `WriteLoop` but for the record. -/
def WriteLoopChunks (internalBlockSize : Nat) :
    Nat → md5Digest → List Byte → Nat → Option (Step (Nat × Option String) × List (List Byte))
  | 0, _, _, _ => none
  | fuel + 1, d, p, nn =>
    let l := if internalBlockSize < p.length then internalBlockSize else p.length
    let s := write d (p.take l)
    match s.ret with
    | .returned (nnn, none) =>
      if (p.drop l).length = 0 then some (⟨s.d, s.sent, .returned (nn + nnn, none)⟩, [p.take l])
      else
        (WriteLoopChunks internalBlockSize fuel s.d (p.drop l) (nn + nnn)).map
          fun t => (⟨t.1.d, s.sent ++ t.1.sent, t.1.ret⟩, p.take l :: t.2)
    | .returned (_, some err) => some (⟨s.d, s.sent, .returned (nn, some err)⟩, [p.take l])
    | .panicked m => some (⟨s.d, s.sent, .panicked m⟩, [p.take l])
    | .blocked => some (⟨s.d, s.sent, .blocked⟩, [p.take l])

/-! ## Arithmetic and list facts -/

theorem bitClear_eq_ldiff (a b : Nat) : bitClear a b = Nat.ldiff a b := by
  apply Nat.eq_of_testBit_eq
  intro i
  simp only [bitClear, Nat.testBit_land, Nat.testBit_xor, Nat.testBit_ldiff]
  cases Nat.testBit a i <;> cases Nat.testBit b i <;> rfl

theorem bitClear_63 (n : Nat) : bitClear n (BlockSize - 1) = n / 64 * 64 := by
  apply Nat.eq_of_testBit_eq
  intro i
  have h63 : BlockSize - 1 = 2 ^ 6 - 1 := by decide
  have h64 : n / 64 * 64 = (n >>> 6) <<< 6 := by
    rw [Nat.shiftLeft_eq, Nat.shiftRight_eq_div_pow]
  rw [h64, bitClear, Nat.testBit_land, Nat.testBit_xor, h63, Nat.testBit_two_pow_sub_one,
    Nat.testBit_shiftLeft, Nat.testBit_shiftRight]
  by_cases h : i < 6
  · simp [h]
  · have h6 : 6 ≤ i := Nat.le_of_not_lt h
    simp [h, h6, Nat.add_sub_cancel' h6]

/-! ## The pieces of `write` -/

theorem write_eq (d : md5Digest) (p : List Byte) :
    write d p =
      (writeFill { d with len := (d.len + p.length) % 2 ^ 64 } p).andThen fun d1 p1 =>
        (writeBulk d1 p1).andThen fun d2 p2 => writeRest p.length d2 p2 := rfl

theorem andThen_returned {α β : Type} (d : md5Digest) (evs : List Event) (v : α)
    (k : md5Digest → α → Step β) :
    (⟨d, evs, .returned v⟩ : Step α).andThen k = ⟨(k d v).d, evs ++ (k d v).sent, (k d v).ret⟩ :=
  rfl

theorem sendBlock_open (d : md5Digest) (bi : blockInput) (h : d.blocksCh = true) :
    sendBlock d bi = ⟨d, [Event.blocksCh bi, Event.cycleServer d.uid], .returned ()⟩ := by
  simp [sendBlock, h]

theorem payloads_append (a b : List Event) : payloads (a ++ b) = payloads a ++ payloads b := by
  induction a with
  | nil => rfl
  | cons e t ih => cases e <;> simp [payloads, ih]

theorem dataMsgs_nil (uid : Nat) : DataMsgs uid [] := by
  intro e he
  cases he

theorem dataMsgs_append {uid : Nat} {a b : List Event} (ha : DataMsgs uid a)
    (hb : DataMsgs uid b) : DataMsgs uid (a ++ b) := by
  intro e he
  rcases List.mem_append.mp he with h | h
  · exact ha e h
  · exact hb e h

theorem dataMsgs_send (uid : Nat) (msg : List Byte) (h1 : msg ≠ [])
    (h2 : msg.length % BlockSize = 0) :
    DataMsgs uid [Event.blocksCh ⟨uid, msg, false, false⟩, Event.cycleServer uid] := by
  intro e he
  simp only [List.mem_cons, List.mem_singleton, List.not_mem_nil, or_false] at he
  rcases he with h | h
  · exact Or.inr ⟨msg, h, h1, h2⟩
  · exact Or.inl h

theorem writeFill_empty (d : md5Digest) (p : List Byte) (h0 : d.nx = 0) :
    writeFill d p = ⟨d, [], .returned p⟩ := by
  simp [writeFill, h0]

theorem writeFill_full (d : md5Digest) (p : List Byte) (hopen : d.blocksCh = true)
    (hx : d.x.length = 64) (h0 : 0 < d.nx) (hnx : d.nx < 64) (hp : 64 - d.nx ≤ p.length) :
    writeFill d p =
      ⟨{ d with x := d.x.take d.nx ++ p.take (64 - d.nx), nx := 0 },
        [Event.blocksCh ⟨d.uid, d.x.take d.nx ++ p.take (64 - d.nx), false, false⟩,
          Event.cycleServer d.uid],
        .returned (p.drop (64 - d.nx))⟩ := by
  have hlt : ¬ d.x.length < d.nx := by omega
  have hmin : min (d.x.length - d.nx) p.length = 64 - d.nx := by omega
  have hdrop : List.drop (d.nx + (64 - d.nx)) d.x = [] := by
    apply List.drop_eq_nil_of_le
    omega
  have hfull : d.nx + (64 - d.nx) = BlockSize := by
    simp only [BlockSize]
    omega
  rw [writeFill, if_pos h0, if_neg hlt]
  simp only [copyAt, hmin, hdrop, List.append_nil]
  rw [if_pos hfull, sendBlock_open _ _ (by exact hopen), andThen_returned]
  simp

theorem writeFill_short (d : md5Digest) (p : List Byte)
    (hx : d.x.length = 64) (h0 : 0 < d.nx) (hnx : d.nx < 64) (hp : p.length < 64 - d.nx) :
    writeFill d p =
      ⟨{ d with x := d.x.take d.nx ++ p ++ d.x.drop (d.nx + p.length), nx := d.nx + p.length },
        [], .returned []⟩ := by
  have hlt : ¬ d.x.length < d.nx := by omega
  have hmin : min (d.x.length - d.nx) p.length = p.length := by omega
  have hfull : ¬ d.nx + p.length = BlockSize := by
    simp only [BlockSize]
    omega
  rw [writeFill, if_pos h0, if_neg hlt]
  simp only [copyAt, hmin, List.take_length, List.drop_length]
  rw [if_neg hfull]

theorem writeBulk_lt (d : md5Digest) (p : List Byte) (hp : p.length < 64) :
    writeBulk d p = ⟨d, [], .returned p⟩ := by
  have h : ¬ BlockSize ≤ p.length := by
    simp only [BlockSize]
    omega
  rw [writeBulk, if_neg h]

theorem writeBulk_ge (d : md5Digest) (p : List Byte) (hopen : d.blocksCh = true)
    (hp : 64 ≤ p.length) :
    writeBulk d p =
      ⟨d, [Event.blocksCh ⟨d.uid, p.take (p.length / 64 * 64), false, false⟩,
          Event.cycleServer d.uid],
        .returned (p.drop (p.length / 64 * 64))⟩ := by
  have h : BlockSize ≤ p.length := hp
  rw [writeBulk, if_pos h]
  simp only [bitClear_63]
  rw [sendBlock_open _ _ hopen, andThen_returned]
  simp

theorem writeRest_nil (nn : Nat) (d : md5Digest) :
    writeRest nn d [] = ⟨d, [], .returned (nn, none)⟩ := by
  simp [writeRest]

theorem writeRest_cons (nn : Nat) (d : md5Digest) (p : List Byte) (hx : d.x.length = 64)
    (h0 : 0 < p.length) (hp : p.length < 64) :
    writeRest nn d p =
      ⟨{ d with x := p ++ d.x.drop p.length, nx := p.length }, [], .returned (nn, none)⟩ := by
  have hmin : min (d.x.length - 0) p.length = p.length := by omega
  rw [writeRest, if_pos h0]
  simp only [copyAt, hmin, List.take_zero, List.nil_append, List.take_length, Nat.zero_add]

/-- The second and third piece of `write` on an empty buffer. -/
theorem writeBulkRest_spec (nn : Nat) (d : md5Digest) (p : List Byte) (hopen : d.blocksCh = true)
    (hx : d.x.length = 64) (h0 : d.nx = 0) :
    ∃ s, ((writeBulk d p).andThen fun d2 p2 => writeRest nn d2 p2) = s ∧
      s.ret = .returned (nn, none) ∧ s.d.uid = d.uid ∧ s.d.blocksCh = true ∧ s.d.len = d.len ∧
      WellFormed s.d ∧ payloads s.sent ++ s.d.x.take s.d.nx = p ∧ DataMsgs d.uid s.sent := by
  have hmod : p.length % 64 < 64 := Nat.mod_lt _ (by decide)
  have hdm := Nat.div_add_mod p.length 64
  have hdl : (p.drop (p.length / 64 * 64)).length = p.length % 64 := by
    rw [List.length_drop]
    omega
  by_cases hp : 64 ≤ p.length
  · have hmsg : DataMsgs d.uid [Event.blocksCh ⟨d.uid, p.take (p.length / 64 * 64), false, false⟩,
        Event.cycleServer d.uid] := by
      have hl : (p.take (p.length / 64 * 64)).length = p.length / 64 * 64 := by
        rw [List.length_take]
        omega
      apply dataMsgs_send
      · intro h
        rw [h, List.length_nil] at hl
        omega
      · rw [hl]
        simp only [BlockSize]
        omega
    rw [writeBulk_ge d p hopen hp, andThen_returned]
    by_cases hr : p.drop (p.length / 64 * 64) = []
    · rw [hr, writeRest_nil]
      refine ⟨_, rfl, rfl, rfl, hopen, rfl, ⟨hx, by rw [h0]; decide⟩, ?_, ?_⟩
      · simp only [payloads, h0, List.take_zero, List.append_nil]
        have := List.take_append_drop (p.length / 64 * 64) p
        rw [hr, List.append_nil] at this
        exact this
      · simpa using hmsg
    · have hpos : 0 < (p.drop (p.length / 64 * 64)).length := List.length_pos.mpr hr
      rw [writeRest_cons nn d _ hx hpos (by omega)]
      refine ⟨_, rfl, rfl, rfl, hopen, rfl, ⟨?_, ?_⟩, ?_, ?_⟩
      · simp only [List.length_append, List.length_drop, BlockSize]
        omega
      · simp only [BlockSize]
        omega
      · simp only [payloads, List.append_nil, List.take_left, List.take_append_drop]
      · simpa using hmsg
  · have hlt : p.length < 64 := by omega
    rw [writeBulk_lt d p hlt, andThen_returned]
    by_cases hr : p = []
    · rw [hr, writeRest_nil]
      exact ⟨_, rfl, rfl, rfl, hopen, rfl, ⟨hx, by rw [h0]; decide⟩, by simp [payloads, h0],
        by simpa using dataMsgs_nil d.uid⟩
    · have hpos : 0 < p.length := List.length_pos.mpr hr
      rw [writeRest_cons nn d _ hx hpos hlt]
      refine ⟨_, rfl, rfl, rfl, hopen, rfl, ⟨?_, ?_⟩, ?_, ?_⟩
      · simp only [List.length_append, List.length_drop, BlockSize]
        omega
      · exact hlt
      · simp only [payloads, List.nil_append, List.take_left]
      · simpa using dataMsgs_nil d.uid

/-- The unexported `write` on an open, well-formed handle. -/
theorem write_spec (d : md5Digest) (p : List Byte) (hopen : d.blocksCh = true)
    (hwf : WellFormed d) : Wrote d p p.length (write d p) := by
  obtain ⟨hx, hnx⟩ := hwf
  simp only [BlockSize] at hx hnx
  rw [write_eq]
  by_cases h0 : d.nx = 0
  · rw [writeFill_empty { d with len := (d.len + p.length) % 2 ^ 64 } p (by exact h0),
      andThen_returned]
    obtain ⟨s, hs, h1, h2, h3, h4, h5, h6, h7⟩ :=
      writeBulkRest_spec p.length { d with len := (d.len + p.length) % 2 ^ 64 } p hopen hx h0
    rw [hs]
    exact ⟨h1, h2, h3, h4, h5, by simpa [h0] using h6, by simpa using h7⟩
  · have hpos : 0 < d.nx := Nat.pos_of_ne_zero h0
    by_cases hp : 64 - d.nx ≤ p.length
    · rw [writeFill_full { d with len := (d.len + p.length) % 2 ^ 64 } p hopen hx hpos hnx hp,
        andThen_returned]
      have hxl : (d.x.take d.nx ++ p.take (64 - d.nx)).length = 64 := by
        rw [List.length_append, List.length_take, List.length_take]
        omega
      obtain ⟨s, hs, h1, h2, h3, h4, h5, h6, h7⟩ :=
        writeBulkRest_spec p.length
          { d with len := (d.len + p.length) % 2 ^ 64,
                   x := d.x.take d.nx ++ p.take (64 - d.nx), nx := 0 }
          (p.drop (64 - d.nx)) hopen hxl rfl
      rw [hs]
      refine ⟨h1, h2, h3, h4, h5, ?_, ?_⟩
      · simp only [payloads, List.append_nil, List.nil_append, List.append_assoc, List.append_eq,
          h6, List.take_append_drop]
      · refine dataMsgs_append (dataMsgs_send _ _ ?_ ?_) h7
        · intro h
          rw [h, List.length_nil] at hxl
          omega
        · rw [hxl]
          rfl
    · have hlt : p.length < 64 - d.nx := by omega
      rw [writeFill_short { d with len := (d.len + p.length) % 2 ^ 64 } p hx hpos hnx hlt,
        andThen_returned, writeBulk_lt _ [] (by simp), andThen_returned, writeRest_nil]
      refine ⟨rfl, rfl, hopen, rfl, ⟨?_, ?_⟩, ?_, ?_⟩
      · simp only [List.length_append, List.length_take, List.length_drop, BlockSize]
        omega
      · simp only [BlockSize]
        omega
      · have hl : (d.x.take d.nx ++ p).length = d.nx + p.length := by
          rw [List.length_append, List.length_take]
          omega
        simp only [payloads, List.append_nil, List.nil_append]
        rw [← hl, List.take_left]
      · simpa using dataMsgs_nil d.uid

/-- Two calls in sequence act as one call on the concatenated input. -/
theorem Wrote.trans {d : md5Digest} {a b : List Byte} {na nb : Nat}
    {s t : Step (Nat × Option String)} (hs : Wrote d a na s) (ht : Wrote s.d b nb t) :
    Wrote d (a ++ b) nb ⟨t.d, s.sent ++ t.sent, t.ret⟩ where
  ret := ht.ret
  uid := ht.uid.trans hs.uid
  blocksCh := ht.blocksCh
  len := by
    show t.d.len = _
    rw [ht.len, hs.len, List.length_append, Nat.mod_add_mod, Nat.add_assoc]
  wf := ht.wf
  stream := by
    show payloads (s.sent ++ t.sent) ++ _ = _
    rw [payloads_append, List.append_assoc, ht.stream, ← List.append_assoc, hs.stream,
      List.append_assoc]
  msgs := dataMsgs_append hs.msgs (hs.uid ▸ ht.msgs)

/-- The chunking loop returns when the fuel exceeds the length of the input, and it
then did what a single `write` of the whole input specifies. -/
theorem WriteLoop_spec (ibs : Nat) (hibs : 1 ≤ ibs) :
    ∀ (fuel : Nat) (d : md5Digest) (p : List Byte) (nn : Nat), d.blocksCh = true →
      WellFormed d → p.length < fuel →
      ∃ s, WriteLoop ibs fuel d p nn = some s ∧ Wrote d p (nn + p.length) s := by
  intro fuel
  induction fuel with
  | zero => intro d p nn _ _ h; omega
  | succ f ih =>
    intro d p nn hopen hwf hlen
    have hw := write_spec d (p.take (if ibs < p.length then ibs else p.length)) hopen hwf
    rw [WriteLoop, hw.ret]
    dsimp only
    by_cases hd : (p.drop (if ibs < p.length then ibs else p.length)).length = 0
    · rw [if_pos hd]
      have hall : p.take (if ibs < p.length then ibs else p.length) = p := by
        rw [List.length_drop] at hd
        apply List.take_of_length_le
        omega
      rw [hall] at hw ⊢
      exact ⟨_, rfl, ⟨rfl, hw.uid, hw.blocksCh, hw.len, hw.wf, hw.stream, hw.msgs⟩⟩
    · rw [if_neg hd]
      have hlt : (p.drop (if ibs < p.length then ibs else p.length)).length < f := by
        rw [List.length_drop] at hd ⊢
        split_ifs at hd ⊢ <;> omega
      obtain ⟨t, ht, hwt⟩ := ih (write d (p.take (if ibs < p.length then ibs else p.length))).d
        (p.drop (if ibs < p.length then ibs else p.length))
        (nn + (p.take (if ibs < p.length then ibs else p.length)).length) hw.blocksCh hw.wf hlt
      rw [ht]
      refine ⟨_, rfl, ?_⟩
      have hcomp := Wrote.trans hw hwt
      rw [List.take_append_drop] at hcomp
      have hn : nn + (p.take (if ibs < p.length then ibs else p.length)).length
          + (p.drop (if ibs < p.length then ibs else p.length)).length = nn + p.length := by
        rw [Nat.add_assoc, ← List.length_append, List.take_append_drop]
      rw [hn] at hcomp
      exact hcomp

/-- A call of `Write` on an open, well-formed handle returns (for `internalBlockSize ≥ 1`) and did
what a single `write` of the whole input specifies. -/
theorem Write_spec (ibs : Nat) (hibs : 1 ≤ ibs) (d : md5Digest) (p : List Byte)
    (hopen : d.blocksCh = true) (hwf : WellFormed d) :
    ∃ s, Write ibs d p = some s ∧ Wrote d p p.length s := by
  obtain ⟨s, hs, hw⟩ := WriteLoop_spec ibs hibs (p.length + 1) d p 0 hopen hwf (Nat.lt_succ_self _)
  refine ⟨s, ?_, ?_⟩
  · rw [Write, hopen]
    exact hs
  · rw [Nat.zero_add] at hw
    exact hw

/-- Whatever `internalBlockSize` and the fuel are, a loop that returns did what a single
`write` of the whole input specifies. -/
theorem WriteLoop_wrote (ibs : Nat) :
    ∀ (fuel : Nat) (d : md5Digest) (p : List Byte) (nn : Nat) (s : Step (Nat × Option String)),
      d.blocksCh = true → WellFormed d → WriteLoop ibs fuel d p nn = some s →
      Wrote d p (nn + p.length) s := by
  intro fuel
  induction fuel with
  | zero =>
    intro d p nn s _ _ h
    rw [WriteLoop] at h
    cases h
  | succ f ih =>
    intro d p nn s hopen hwf h
    have hw := write_spec d (p.take (if ibs < p.length then ibs else p.length)) hopen hwf
    rw [WriteLoop, hw.ret] at h
    dsimp only at h
    have hn : nn + (p.take (if ibs < p.length then ibs else p.length)).length
        + (p.drop (if ibs < p.length then ibs else p.length)).length = nn + p.length := by
      rw [Nat.add_assoc, ← List.length_append, List.take_append_drop]
    by_cases hd : (p.drop (if ibs < p.length then ibs else p.length)).length = 0
    · rw [if_pos hd] at h
      have hall : p.take (if ibs < p.length then ibs else p.length) = p := by
        have := List.take_append_drop (if ibs < p.length then ibs else p.length) p
        rw [List.length_eq_zero.mp hd, List.append_nil] at this
        exact this
      rw [hall] at hw h
      rw [← Option.some.inj h]
      exact ⟨rfl, hw.uid, hw.blocksCh, hw.len, hw.wf, hw.stream, hw.msgs⟩
    · rw [if_neg hd] at h
      obtain ⟨t, ht, hst⟩ := Option.map_eq_some'.mp h
      have hwt := ih _ _ _ t hw.blocksCh hw.wf ht
      have hcomp := Wrote.trans hw hwt
      rw [List.take_append_drop, hn] at hcomp
      rw [← hst]
      exact hcomp

/-- A call of `Write` on an open, well-formed handle that returns did what a single
`write` of the whole input specifies, whatever `internalBlockSize` is. -/
theorem Write_wrote (ibs : Nat) (d : md5Digest) (p : List Byte) (s : Step (Nat × Option String))
    (hopen : d.blocksCh = true) (hwf : WellFormed d) (h : Write ibs d p = some s) :
    Wrote d p p.length s := by
  rw [Write, hopen] at h
  have := WriteLoop_wrote ibs _ d p 0 s hopen hwf h
  rw [Nat.zero_add] at this
  exact this

/-- With `internalBlockSize = 0` the loop never leaves on a non-empty input: no amount
of fuel makes it return. -/
theorem WriteLoop_zero_diverges :
    ∀ (fuel : Nat) (d : md5Digest) (p : List Byte) (nn : Nat), d.blocksCh = true →
      WellFormed d → p ≠ [] → WriteLoop 0 fuel d p nn = none := by
  intro fuel
  induction fuel with
  | zero =>
    intro d p nn _ _ _
    rw [WriteLoop]
  | succ f ih =>
    intro d p nn hopen hwf hp
    have hpos : 0 < p.length := List.length_pos.mpr hp
    have hl : (if 0 < p.length then 0 else p.length) = 0 := if_pos hpos
    have hw := write_spec d (p.take 0) hopen hwf
    rw [WriteLoop, hl, hw.ret]
    dsimp only
    rw [List.drop_zero, if_neg (by omega), ih _ p _ hw.blocksCh hw.wf hp]
    rfl

/-- A call of `Write` on a closed handle. -/
theorem Write_closed (ibs : Nat) (d : md5Digest) (p : List Byte) (hclosed : d.blocksCh = false) :
    Write ibs d p = some ⟨d, [], .returned (0, some "md5Digest closed")⟩ := by
  rw [Write, hclosed]
  rfl

theorem payloads_length_mod {uid : Nat} {evs : List Event} (h : DataMsgs uid evs) :
    (payloads evs).length % 64 = 0 := by
  induction evs with
  | nil => rfl
  | cons e t ih =>
    have ht : DataMsgs uid t := fun e he => h e (List.mem_cons_of_mem _ he)
    have ih := ih ht
    rcases h e (List.mem_cons_self _ _) with he | ⟨msg, he, _, hm⟩
    · rw [he]
      exact ih
    · rw [he]
      simp only [payloads, List.length_append]
      simp only [BlockSize] at hm
      omega

/-- A byte stream splits in one way only into whole blocks followed by less than a block. -/
theorem split_unique {a b a1 b1 : List Byte} (h : a ++ b = a1 ++ b1)
    (ha : a.length % 64 = 0) (ha1 : a1.length % 64 = 0) (hb : b.length < 64)
    (hb1 : b1.length < 64) : a = a1 ∧ b = b1 := by
  have hl := congrArg List.length h
  rw [List.length_append, List.length_append] at hl
  exact List.append_inj h (by omega)

/-- After a write the buffer index is the old one advanced by the input, modulo 64. -/
theorem Wrote.nx_eq {d : md5Digest} {p : List Byte} {nn : Nat} {s : Step (Nat × Option String)}
    (h : Wrote d p nn s) (hwf : WellFormed d) : s.d.nx = (d.nx + p.length) % 64 := by
  have hl := congrArg List.length h.stream
  have hm := payloads_length_mod h.msgs
  obtain ⟨hx, hnx⟩ := hwf
  obtain ⟨hx1, hnx1⟩ := h.wf
  simp only [BlockSize] at hx hnx hx1 hnx1
  rw [List.length_append, List.length_append, List.length_take, List.length_take] at hl
  omega

/-! ## The padded tail of `Sum` -/

theorem padCount_bounds (L : Nat) : 1 ≤ padCount L ∧ padCount L ≤ 64 := by
  have h := Nat.mod_lt L (show 0 < 64 by decide)
  unfold padCount
  split_ifs <;> omega

theorem padCount_eq (L : Nat) : padCount L = zeroPadLen L + 1 := by
  have h := Nat.mod_lt L (show 0 < 64 by decide)
  unfold padCount zeroPadLen
  split_ifs <;> omega

/-- The first `k` bytes of the array `tmp` of `Sum` before the length is stored. -/
theorem take_tmp (k : Nat) (h1 : 1 ≤ k) (h2 : k ≤ 64) :
    ((0x80 : Byte) :: List.replicate 63 (0 : Byte)).take k
      = [(0x80 : Byte)] ++ List.replicate (k - 1) (0 : Byte) := by
  obtain ⟨j, rfl⟩ : ∃ j, k = j + 1 := ⟨k - 1, by omega⟩
  rw [List.take_succ_cons, List.take_replicate]
  have : min j 63 = j := by omega
  simp [this]

theorem putUint64_take (b : List Byte) (v : Nat) :
    (putUint64 b v).take 8 = (List.range 8).map (fun i => UInt8.ofNat (v >>> (8 * i))) := by
  unfold putUint64
  apply List.take_left'
  simp

theorem shl3_mod (L : Nat) : ((L % 2 ^ 64) <<< 3) % 2 ^ 64 = (8 * L) % 2 ^ 64 := by
  rw [Nat.shiftLeft_eq, Nat.mod_mul_mod, Nat.mul_comm]

/-- The tail of `Sum` spelled out: the buffered bytes, `0x80`, the zero bytes and the
eight length bytes. -/
theorem sumTrail_eq (d : md5Digest) :
    sumTrail d = d.x.take d.nx ++ ([(0x80 : Byte)] ++ List.replicate (zeroPadLen d.len) (0 : Byte)
      ++ (List.range 8).map (fun i => UInt8.ofNat (((d.len <<< 3) % 2 ^ 64) >>> (8 * i)))) := by
  have hb := padCount_bounds d.len
  unfold sumTrail
  simp only []
  rw [putUint64_take, take_tmp _ hb.1 hb.2, padCount_eq, Nat.add_sub_cancel]
  simp only [List.append_assoc]

theorem sumTrail_length (d : md5Digest) (hnx : d.nx ≤ d.x.length) :
    (sumTrail d).length = d.nx + padCount d.len + 8 := by
  rw [sumTrail_eq, padCount_eq]
  simp only [List.length_append, List.length_take, List.length_replicate, List.length_map,
    List.length_range, List.length_singleton]
  omega

/-- With `nx = len mod 64` the tail is one block or two. -/
theorem sumTrail_length_inv (d : md5Digest) (hwf : WellFormed d) (hinv : d.nx = d.len % 64) :
    (sumTrail d).length = if d.len % 64 < 56 then 64 else 128 := by
  obtain ⟨hx, hnx⟩ := hwf
  simp only [BlockSize] at hx hnx
  rw [sumTrail_length d (by omega), hinv]
  unfold padCount
  split_ifs <;> omega

/-- A call of `Sum` on an open handle whose buffer index agrees with the byte counter: one
message with the tail and the completion channel, one cycle notification, the handle
as it was, and the delivered digest appended to `in_`. -/
theorem Sum_open (d : md5Digest) (in_ : List Byte) (sum : sumResult) (hopen : d.blocksCh = true)
    (hwf : WellFormed d) (hinv : d.nx = d.len % 64) :
    Sum d in_ sum = ⟨d, [Event.blocksCh ⟨d.uid, sumTrail d, false, true⟩, Event.cycleServer d.uid],
      .returned (in_ ++ sum.digest)⟩ := by
  have hlen := sumTrail_length_inv d hwf hinv
  obtain ⟨hx, hnx⟩ := hwf
  simp only [BlockSize] at hx hnx
  have h1 : ¬ d.x.length < d.nx := by omega
  have h2 : ¬ 64 < padCount d.len := by
    have := (padCount_bounds d.len).2
    omega
  have h3 : ¬ (sumTrail d).length % BlockSize ≠ 0 := by
    rw [hlen]
    simp only [BlockSize]
    split_ifs <;> decide
  rw [Sum, hopen]
  simp only [Bool.not_true, Bool.false_eq_true, if_false, if_neg h1, if_neg h2, if_neg h3]
  rw [sendBlock_open _ _ hopen, andThen_returned]
  simp

/-! ## Frame facts and the invariant of the reachable states -/

theorem Sum_d (d : md5Digest) (in_ : List Byte) (sum : sumResult) : (Sum d in_ sum).d = d := by
  unfold Sum
  split_ifs
  · rfl
  · rfl
  · rfl
  · rfl
  · unfold sendBlock Step.andThen
    split_ifs <;> rfl

/-- The sends of `Sum` depend neither on its argument nor on the delivered digest. -/
theorem Sum_sent (d : md5Digest) (in1 in2 : List Byte) (sum1 sum2 : sumResult) :
    (Sum d in1 sum1).sent = (Sum d in2 sum2).sent := by
  unfold Sum
  split_ifs
  · rfl
  · rfl
  · rfl
  · rfl
  · unfold sendBlock Step.andThen
    split_ifs <;> rfl

theorem Reset_open (d : md5Digest) (hopen : d.blocksCh = true) :
    Reset d = ⟨{ d with nx := 0, len := 0 },
      [Event.blocksCh ⟨d.uid, [], true, false⟩, Event.cycleServer d.uid], .returned ()⟩ := by
  rw [Reset, hopen]
  simp only [Bool.not_true, Bool.false_eq_true, if_false]
  rw [sendBlock_open _ _ rfl]

theorem Reset_closed (d : md5Digest) (hclosed : d.blocksCh = false) :
    Reset d = ⟨d, [], .panicked "reset after close"⟩ := by
  rw [Reset, hclosed]
  rfl

theorem Sum_closed (d : md5Digest) (in_ : List Byte) (sum : sumResult)
    (hclosed : d.blocksCh = false) : Sum d in_ sum = ⟨d, [], .panicked "sum after close"⟩ := by
  rw [Sum, hclosed]
  rfl

theorem mod_two_pow_mod (n : Nat) : n % 2 ^ 64 % 64 = n % 64 :=
  Nat.mod_mod_of_dvd n (by decide)

/-- A write keeps the buffer index equal to the byte counter modulo 64. -/
theorem Wrote.keeps_inv {d : md5Digest} {p : List Byte} {nn : Nat} {s : Step (Nat × Option String)}
    (h : Wrote d p nn s) (hwf : WellFormed d) (hinv : d.nx = d.len % 64) :
    s.d.nx = s.d.len % 64 := by
  rw [h.nx_eq hwf, h.len, mod_two_pow_mod, hinv]
  omega

/-- In every reachable state `x` has 64 bytes, `nx < 64` and `nx = len mod 64`. -/
theorem Reachable.buffer_inv {ibs : Nat} {d : md5Digest} (h : Reachable ibs d) :
    WellFormed d ∧ d.nx = d.len % 64 := by
  induction h with
  | fresh uid => exact ⟨⟨by simp [NewMd5], Nat.zero_lt_succ 63⟩, rfl⟩
  | @write d p s _ hw ih =>
    cases hopen : d.blocksCh with
    | true =>
      have hwr := Write_wrote ibs d p s hopen ih.1 hw
      exact ⟨hwr.wf, hwr.keeps_inv ih.1 ih.2⟩
    | false =>
      rw [Write_closed ibs d p hopen] at hw
      rw [← Option.some.inj hw]
      exact ih
  | @reset d _ ih =>
    cases hopen : d.blocksCh with
    | true =>
      rw [Reset_open d hopen]
      exact ⟨⟨ih.1.1, Nat.zero_lt_succ 63⟩, rfl⟩
    | false =>
      rw [Reset_closed d hopen]
      exact ih
  | sum in_ sum _ ih =>
    rw [Sum_d]
    exact ih
  | @close d _ ih =>
    unfold Close
    split_ifs
    · exact ⟨⟨ih.1.1, ih.1.2⟩, ih.2⟩
    · exact ih

/-! ## The compression function over a stream, and the server lane -/

theorem md5BlocksN_append (k j : Nat) :
    ∀ (st : md5State) (a b : List Byte), a.length = 64 * k →
      md5BlocksN (k + j) st (a ++ b) = md5BlocksN j (md5BlocksN k st a) b := by
  induction k with
  | zero =>
    intro st a b ha
    have : a = [] := List.length_eq_zero.mp (by omega)
    subst this
    simp [md5BlocksN]
  | succ k ih =>
    intro st a b ha
    have h64 : 64 ≤ a.length := by omega
    have hk : k + 1 + j = (k + j) + 1 := by omega
    rw [hk, md5BlocksN, md5BlocksN, List.take_append_of_le_length h64,
      List.drop_append_of_le_length h64]
    apply ih
    rw [List.length_drop]
    omega

/-- Compressing a stream that starts with whole blocks is compressing those blocks and
then the remainder. -/
theorem md5Blocks_append (st : md5State) (a b : List Byte) (ha : a.length % 64 = 0) :
    md5Blocks st (a ++ b) = md5Blocks (md5Blocks st a) b := by
  have hk : a.length = 64 * (a.length / 64) := by omega
  have hdiv : (a ++ b).length / 64 = a.length / 64 + b.length / 64 := by
    rw [List.length_append]
    omega
  unfold md5Blocks
  rw [hdiv]
  exact md5BlocksN_append _ _ st a b hk

theorem leBytes32_length (v : Nat) : (leBytes32 v).length = 4 := by
  simp [leBytes32]

theorem md5Encode_length (st : md5State) : (md5Encode st).length = Size := by
  simp [md5Encode, leBytes32_length, Size]

theorem md5Sum_length (m : List Byte) : (md5Sum m).length = Size :=
  md5Encode_length _

/-- The lane consumes the data messages of its stream as one byte stream. -/
theorem serverLane_data (uid : Nat) (evs rest : List Event) :
    ∀ (acc : md5State), DataMsgs uid evs →
      serverLane uid acc (evs ++ rest) = serverLane uid (md5Blocks acc (payloads evs)) rest := by
  induction evs with
  | nil =>
    intro acc _
    rfl
  | cons e t ih =>
    intro acc h
    have ht : DataMsgs uid t := fun e he => h e (List.mem_cons_of_mem _ he)
    rcases h e (List.mem_cons_self _ _) with he | ⟨msg, he, _, hm⟩
    · rw [he]
      exact ih acc ht
    · rw [he]
      simp only [BlockSize] at hm
      have hm2 : ¬ msg.length % BlockSize ≠ 0 := by
        simp only [BlockSize]
        omega
      simp only [List.cons_append, serverLane, payloads, ne_eq, not_true_eq_false, if_false,
        Bool.false_eq_true, if_neg hm2, List.append_eq]
      rw [ih _ ht, md5Blocks_append _ _ _ hm]

/-- The lane answers a message with a completion channel and a payload of whole blocks
with the digest of the accumulator after that payload. -/
theorem serverLane_final (uid : Nat) (acc : md5State) (msg : List Byte) (rest : List Event)
    (hm : msg.length % 64 = 0) :
    serverLane uid acc (Event.blocksCh ⟨uid, msg, false, true⟩ :: rest)
      = some (md5Encode (md5Blocks acc msg)) := by
  have hm2 : ¬ msg.length % BlockSize ≠ 0 := by
    simp only [BlockSize]
    omega
  simp only [serverLane, ne_eq, not_true_eq_false, if_false, Bool.false_eq_true, if_neg hm2,
    if_true]

/-- The lane returns to the initial state on a reset marker. -/
theorem serverLane_reset (uid : Nat) (acc : md5State) (msg : List Byte) (rest : List Event) :
    serverLane uid acc (Event.blocksCh ⟨uid, msg, true, false⟩ :: Event.cycleServer uid :: rest)
      = serverLane uid md5Init rest := by
  simp only [serverLane, ne_eq, not_true_eq_false, if_false, if_true]

/-! ## The padded message -/

theorem zeroPadLen_spec (L : Nat) : zeroPadLen L < 64 ∧ (L + 1 + zeroPadLen L) % 64 = 56 := by
  unfold zeroPadLen
  omega

theorem md5Pad_length_mod (m : List Byte) : (md5Pad m).length % 64 = 0 := by
  have := zeroPadLen_spec m.length
  simp only [md5Pad, List.length_append, List.length_replicate, List.length_map,
    List.length_range, List.length_singleton]
  omega

/-- The payloads sent for the input `m` followed by the tail of `Sum` are the padded
message of `m`, when the buffer holds what of `m` was not sent and the counter is the
length of `m` modulo `2 ^ 64`. -/
theorem stream_sumTrail (d : md5Digest) (sentBytes m : List Byte)
    (hstream : sentBytes ++ d.x.take d.nx = m) (hlen : d.len = m.length % 2 ^ 64) :
    sentBytes ++ sumTrail d = md5Pad m := by
  have hz : zeroPadLen d.len = zeroPadLen m.length := by
    unfold zeroPadLen
    rw [hlen, mod_two_pow_mod]
  rw [sumTrail_eq, hz, hlen, shl3_mod, ← List.append_assoc, hstream]
  simp only [md5Pad, List.append_assoc]

/-! ## Handles that differ only in the unused part of the buffer -/

theorem writeBulkRest_sim (nn : Nat) (d e : md5Digest) (p : List Byte)
    (hd : d.blocksCh = true) (he : e.blocksCh = true) (hxd : d.x.length = 64)
    (hxe : e.x.length = 64) (h0d : d.nx = 0) (h0e : e.nx = 0) (huid : d.uid = e.uid)
    (hlen : d.len = e.len) :
    ((writeBulk d p).andThen fun d2 p2 => writeRest nn d2 p2).sent
        = ((writeBulk e p).andThen fun d2 p2 => writeRest nn d2 p2).sent ∧
      ((writeBulk d p).andThen fun d2 p2 => writeRest nn d2 p2).ret
        = ((writeBulk e p).andThen fun d2 p2 => writeRest nn d2 p2).ret ∧
      SameStream ((writeBulk d p).andThen fun d2 p2 => writeRest nn d2 p2).d
        ((writeBulk e p).andThen fun d2 p2 => writeRest nn d2 p2).d := by
  have hmod : p.length % 64 < 64 := Nat.mod_lt _ (by decide)
  have hdl : (p.drop (p.length / 64 * 64)).length = p.length % 64 := by
    rw [List.length_drop]
    omega
  by_cases hp : 64 ≤ p.length
  · rw [writeBulk_ge d p hd hp, writeBulk_ge e p he hp, andThen_returned, andThen_returned]
    by_cases hr : p.drop (p.length / 64 * 64) = []
    · rw [hr, writeRest_nil, writeRest_nil]
      exact ⟨by rw [huid], rfl, ⟨huid, hd.trans he.symm, h0d.trans h0e.symm, hlen,
        by rw [h0d, h0e, List.take_zero, List.take_zero]⟩⟩
    · have hpos : 0 < (p.drop (p.length / 64 * 64)).length := List.length_pos.mpr hr
      rw [writeRest_cons nn d _ hxd hpos (by omega), writeRest_cons nn e _ hxe hpos (by omega)]
      exact ⟨by rw [huid], rfl, ⟨huid, hd.trans he.symm, rfl, hlen,
        by simp only [List.take_left]⟩⟩
  · have hlt : p.length < 64 := by omega
    rw [writeBulk_lt d p hlt, writeBulk_lt e p hlt, andThen_returned, andThen_returned]
    by_cases hr : p = []
    · rw [hr, writeRest_nil, writeRest_nil]
      exact ⟨rfl, rfl, ⟨huid, hd.trans he.symm, h0d.trans h0e.symm, hlen,
        by rw [h0d, h0e, List.take_zero, List.take_zero]⟩⟩
    · have hpos : 0 < p.length := List.length_pos.mpr hr
      rw [writeRest_cons nn d _ hxd hpos hlt, writeRest_cons nn e _ hxe hpos hlt]
      exact ⟨rfl, rfl, ⟨huid, hd.trans he.symm, rfl, hlen, by simp only [List.take_left]⟩⟩

/-- The unexported `write` sends the same messages from two handles that differ only in the unused
part of the buffer, and leaves them so. -/
theorem write_sim (d e : md5Digest) (p : List Byte) (h : SameStream d e)
    (hopen : d.blocksCh = true) (hwd : WellFormed d) (hwe : WellFormed e) :
    (write d p).sent = (write e p).sent ∧ (write d p).ret = (write e p).ret ∧
      SameStream (write d p).d (write e p).d := by
  obtain ⟨hxd, hnd⟩ := hwd
  obtain ⟨hxe, hne⟩ := hwe
  simp only [BlockSize] at hxd hnd hxe hne
  have hopene : e.blocksCh = true := h.blocksCh ▸ hopen
  have hlen : (d.len + p.length) % 2 ^ 64 = (e.len + p.length) % 2 ^ 64 := by rw [h.len]
  rw [write_eq, write_eq]
  by_cases h0 : d.nx = 0
  · have h0e : e.nx = 0 := h.nx ▸ h0
    rw [writeFill_empty { d with len := (d.len + p.length) % 2 ^ 64 } p (by exact h0),
      writeFill_empty { e with len := (e.len + p.length) % 2 ^ 64 } p (by exact h0e),
      andThen_returned, andThen_returned]
    obtain ⟨h1, h2, h3⟩ := writeBulkRest_sim p.length
      { d with len := (d.len + p.length) % 2 ^ 64 } { e with len := (e.len + p.length) % 2 ^ 64 }
      p hopen hopene hxd hxe h0 h0e h.uid hlen
    exact ⟨by rw [h1], h2, h3⟩
  · have hpos : 0 < d.nx := Nat.pos_of_ne_zero h0
    have hpose : 0 < e.nx := h.nx ▸ hpos
    by_cases hp : 64 - d.nx ≤ p.length
    · have hpe : 64 - e.nx ≤ p.length := h.nx ▸ hp
      rw [writeFill_full { d with len := (d.len + p.length) % 2 ^ 64 } p hopen hxd hpos hnd hp,
        writeFill_full { e with len := (e.len + p.length) % 2 ^ 64 } p hopene hxe hpose hne hpe,
        andThen_returned, andThen_returned]
      have hxl : (d.x.take d.nx ++ p.take (64 - d.nx)).length = 64 := by
        rw [List.length_append, List.length_take, List.length_take]
        omega
      have hxle : (e.x.take e.nx ++ p.take (64 - e.nx)).length = 64 := by
        rw [List.length_append, List.length_take, List.length_take]
        omega
      obtain ⟨h1, h2, h3⟩ := writeBulkRest_sim p.length
        { d with len := (d.len + p.length) % 2 ^ 64,
                 x := d.x.take d.nx ++ p.take (64 - d.nx), nx := 0 }
        { e with len := (e.len + p.length) % 2 ^ 64,
                 x := e.x.take e.nx ++ p.take (64 - e.nx), nx := 0 }
        (p.drop (64 - d.nx)) hopen hopene hxl hxle rfl rfl h.uid hlen
      have hbuf : List.take d.nx e.x = List.take d.nx d.x := by
        have hb := h.buffered
        rw [← h.nx] at hb
        exact hb.symm
      simp only [← h.nx, hbuf, ← h.uid] at h1 h2 h3 ⊢
      exact ⟨by rw [h1], h2, h3⟩
    · have hlt : p.length < 64 - d.nx := by omega
      have hlte : p.length < 64 - e.nx := h.nx ▸ hlt
      rw [writeFill_short { d with len := (d.len + p.length) % 2 ^ 64 } p hxd hpos hnd hlt,
        writeFill_short { e with len := (e.len + p.length) % 2 ^ 64 } p hxe hpose hne hlte,
        andThen_returned, andThen_returned, writeBulk_lt _ [] (by simp),
        writeBulk_lt _ [] (by simp), andThen_returned, andThen_returned, writeRest_nil,
        writeRest_nil]
      refine ⟨rfl, rfl, ⟨h.uid, h.blocksCh, by simp only [h.nx], hlen, ?_⟩⟩
      have hl : (d.x.take d.nx ++ p).length = d.nx + p.length := by
        rw [List.length_append, List.length_take]
        omega
      have hle : (e.x.take e.nx ++ p).length = e.nx + p.length := by
        rw [List.length_append, List.length_take]
        omega
      simp only []
      rw [← hl, ← hle, List.take_left, List.take_left, h.buffered]

theorem WriteLoop_sim (ibs : Nat) :
    ∀ (fuel : Nat) (d e : md5Digest) (p : List Byte) (nn : Nat) (s : Step (Nat × Option String)),
      SameStream d e → d.blocksCh = true → WellFormed d → WellFormed e →
      WriteLoop ibs fuel d p nn = some s →
      ∃ t, WriteLoop ibs fuel e p nn = some t ∧ s.sent = t.sent ∧ s.ret = t.ret ∧
        SameStream s.d t.d := by
  intro fuel
  induction fuel with
  | zero =>
    intro d e p nn s _ _ _ _ h
    rw [WriteLoop] at h
    cases h
  | succ f ih =>
    intro d e p nn s hsim hopen hwd hwe h
    have hopene : e.blocksCh = true := hsim.blocksCh ▸ hopen
    have hw := write_spec d (p.take (if ibs < p.length then ibs else p.length)) hopen hwd
    have hv := write_spec e (p.take (if ibs < p.length then ibs else p.length)) hopene hwe
    obtain ⟨g1, _, g3⟩ :=
      write_sim d e (p.take (if ibs < p.length then ibs else p.length)) hsim hopen hwd hwe
    rw [WriteLoop, hw.ret] at h
    rw [WriteLoop, hv.ret]
    dsimp only at h ⊢
    by_cases hd : (p.drop (if ibs < p.length then ibs else p.length)).length = 0
    · rw [if_pos hd] at h ⊢
      rw [← Option.some.inj h]
      exact ⟨_, rfl, g1, rfl, g3⟩
    · rw [if_neg hd] at h ⊢
      obtain ⟨t1, ht1, hst⟩ := Option.map_eq_some'.mp h
      obtain ⟨t2, ht2, k1, k2, k3⟩ := ih _ _ _ _ t1 g3 hw.blocksCh hw.wf hv.wf ht1
      rw [ht2, ← hst]
      exact ⟨_, rfl, by rw [g1, k1], k2, k3⟩

/-- The method `Write` sends the same messages from two handles that differ only in the unused
part of the buffer, and leaves them so. -/
theorem Write_sim (ibs : Nat) (d e : md5Digest) (p : List Byte) (s : Step (Nat × Option String))
    (hsim : SameStream d e) (hopen : d.blocksCh = true) (hwd : WellFormed d)
    (hwe : WellFormed e) (h : Write ibs d p = some s) :
    ∃ t, Write ibs e p = some t ∧ s.sent = t.sent ∧ s.ret = t.ret ∧ SameStream s.d t.d := by
  have hopene : e.blocksCh = true := hsim.blocksCh ▸ hopen
  rw [Write, hopen] at h
  rw [Write, hopene]
  exact WriteLoop_sim ibs _ d e p 0 s hsim hopen hwd hwe h

theorem sumTrail_sim {d e : md5Digest} (h : SameStream d e) : sumTrail d = sumTrail e := by
  unfold sumTrail
  simp only [h.buffered, h.len]

/-- The method `Sum` sends the same message and returns the same result on two handles that differ
only in the unused part of the buffer. -/
theorem Sum_sim {d e : md5Digest} (h : SameStream d e) (hx : d.x.length = e.x.length)
    (in_ : List Byte) (sum : sumResult) :
    (Sum d in_ sum).sent = (Sum e in_ sum).sent ∧ (Sum d in_ sum).ret = (Sum e in_ sum).ret := by
  unfold Sum sendBlock Step.andThen
  rw [sumTrail_sim h, h.blocksCh, h.nx, h.len, h.uid, hx]
  split_ifs <;> exact ⟨rfl, rfl⟩

theorem notAligned_ne_sumAfterClose (a b : String) :
    "internal error: sum block was not aligned. len=" ++ a ++ ", nx=" ++ b ≠ "sum after close" := by
  intro h
  have hl := congrArg String.length h
  simp only [String.length_append] at hl
  have h1 : "internal error: sum block was not aligned. len=".length = 47 := by decide
  have h2 : "sum after close".length = 15 := by decide
  rw [h1, h2] at hl
  omega

/-- On an open handle `Sum` does not end in the panic of the closed check. -/
theorem Sum_open_ret_ne (d : md5Digest) (in_ : List Byte) (sum : sumResult)
    (hopen : d.blocksCh = true) : (Sum d in_ sum).ret ≠ .panicked "sum after close" := by
  rw [Sum, hopen]
  simp only [Bool.not_true, Bool.false_eq_true, if_false]
  split_ifs
  · intro h
    injection h with h
    exact absurd h (by decide)
  · intro h
    injection h with h
    exact absurd h (by decide)
  · intro h
    injection h with h
    exact notAligned_ne_sumAfterClose _ _ h
  · rw [sendBlock_open _ _ hopen, andThen_returned]
    intro h
    cases h

/-! ## Runs of `Write` calls -/

/-- A run of `Write` calls on an open, well-formed handle returns (for
`internalBlockSize ≥ 1`) and acts as one `write` of the concatenated inputs. -/
theorem Writes_spec (ibs : Nat) (hibs : 1 ≤ ibs) :
    ∀ (ps : List (List Byte)) (d : md5Digest), d.blocksCh = true → WellFormed d →
      d.len < 2 ^ 64 →
      ∃ d1 evs, Writes ibs d ps = some (d1, evs) ∧
        Wrote d ps.flatten ps.flatten.length ⟨d1, evs, .returned (ps.flatten.length, none)⟩ := by
  intro ps
  induction ps with
  | nil =>
    intro d hopen hwf hlen
    refine ⟨d, [], rfl, ⟨rfl, rfl, hopen, ?_, hwf, ?_, dataMsgs_nil _⟩⟩
    · simp only [List.flatten_nil, List.length_nil, Nat.add_zero]
      exact (Nat.mod_eq_of_lt hlen).symm
    · simp [payloads]
  | cons p ps ih =>
    intro d hopen hwf _
    obtain ⟨s, hs, hw⟩ := Write_spec ibs hibs d p hopen hwf
    obtain ⟨sd, ssent, sret⟩ := s
    have hret : sret = .returned (p.length, none) := hw.ret
    subst hret
    have hlen1 : sd.len < 2 ^ 64 := by
      have h := hw.len
      simp only at h
      rw [h]
      exact Nat.mod_lt _ (by decide)
    obtain ⟨d1, evs, h1, hw1⟩ := ih sd hw.blocksCh hw.wf hlen1
    refine ⟨d1, ssent ++ evs, ?_, ?_⟩
    · rw [Writes, hs]
      simp only [h1, Option.map_some']
    · have hc := Wrote.trans hw hw1
      exact ⟨rfl, hc.uid, hc.blocksCh, hc.len, hc.wf, hc.stream, hc.msgs⟩

/-! ## The reference digest on the golden vectors of the test file -/

set_option maxRecDepth 1000000 in
theorem md5Sum_golden_empty :
    md5Sum [] = [0xd4, 0x1d, 0x8c, 0xd9, 0x8f, 0x00, 0xb2, 0x04,
      0xe9, 0x80, 0x09, 0x98, 0xec, 0xf8, 0x42, 0x7e] := by
  decide

set_option maxRecDepth 1000000 in
theorem md5Sum_golden_a :
    md5Sum [0x61] = [0x0c, 0xc1, 0x75, 0xb9, 0xc0, 0xf1, 0xb6, 0xa8,
      0x31, 0xc3, 0x99, 0xe2, 0x69, 0x77, 0x26, 0x61] := by
  decide

set_option maxRecDepth 1000000 in
theorem md5Sum_golden_abc :
    md5Sum [0x61, 0x62, 0x63] = [0x90, 0x01, 0x50, 0x98, 0x3c, 0xd2, 0x4f, 0xb0,
      0xd6, 0x96, 0x3f, 0x7d, 0x28, 0xe1, 0x7f, 0x72] := by
  decide

set_option maxRecDepth 1000000 in
theorem md5Sum_golden_block :
    md5Sum (List.replicate 64 0x61) = [0x01, 0x48, 0x42, 0xd4, 0x80, 0xb5, 0x71, 0x49,
      0x5a, 0x4a, 0x03, 0x63, 0x79, 0x3f, 0x73, 0x67] := by
  decide

set_option maxRecDepth 1000000 in
/-- The model run on the golden entry `abc`: `Write`, then `Sum`, then the server lane. -/
theorem golden_run_abc :
    (Write 32768 (NewMd5 1) [0x61, 0x62, 0x63]).bind
        (fun s => serverLane 1 md5Init
          (s.sent ++ (Sum s.d [] ⟨md5Sum [], md5Sum_length []⟩).sent))
      = some [0x90, 0x01, 0x50, 0x98, 0x3c, 0xd2, 0x4f, 0xb0,
          0xd6, 0x96, 0x3f, 0x7d, 0x28, 0xe1, 0x7f, 0x72] := by
  decide

set_option maxRecDepth 1000000 in
/-- The model run on a golden entry of 67 bytes, written in chunks of 7 bytes so that
the buffer is filled, flushed and refilled. -/
theorem golden_run_action :
    (Write 7 (NewMd5 1) goldenAction).bind
        (fun s => serverLane 1 md5Init
          (s.sent ++ (Sum s.d [] ⟨md5Sum [], md5Sum_length []⟩).sent))
      = some [0x63, 0x7d, 0x2f, 0xe9, 0x25, 0xc0, 0x7c, 0x11, 0x38, 0x00, 0x50, 0x99,
          0x64, 0xfb, 0x0e, 0x06] := by
  decide

/-! ## The empty input -/

/-- With nothing buffered and a zero counter the tail of `Sum` is the byte `0x80` and
63 zero bytes, whatever `x` holds. -/
theorem sumTrail_zero (uid : Nat) (b : Bool) (x : List Byte) :
    sumTrail ⟨uid, b, x, 0, 0⟩ = (0x80 : Byte) :: List.replicate 63 (0 : Byte) := by
  rw [sumTrail_eq]
  show [] ++ ([(0x80 : Byte)] ++ List.replicate (zeroPadLen 0) (0 : Byte)
    ++ (List.range 8).map (fun i => UInt8.ofNat (((0 <<< 3) % 2 ^ 64) >>> (8 * i)))) = _
  decide

theorem Sum_zero (uid : Nat) (x in_ : List Byte) (sum : sumResult) :
    Sum ⟨uid, true, x, 0, 0⟩ in_ sum
      = ⟨⟨uid, true, x, 0, 0⟩,
          [Event.blocksCh ⟨uid, (0x80 : Byte) :: List.replicate 63 (0 : Byte), false, true⟩,
            Event.cycleServer uid],
          .returned (in_ ++ sum.digest)⟩ := by
  have h1 : ¬ x.length < 0 := Nat.not_lt_zero _
  have h2 : ¬ 64 < padCount 0 := by decide
  have h3 : ¬ ((0x80 : Byte) :: List.replicate 63 (0 : Byte)).length % BlockSize ≠ 0 := by decide
  rw [Sum]
  simp only [sumTrail_zero, Bool.not_true, Bool.false_eq_true, if_false, if_neg h1, if_neg h2,
    if_neg h3]
  rw [sendBlock_open _ _ rfl, andThen_returned]
  rfl

set_option maxRecDepth 1000000 in
theorem md5_empty_block :
    md5Encode (md5Blocks md5Init ((0x80 : Byte) :: List.replicate 63 (0 : Byte)))
      = [0xd4, 0x1d, 0x8c, 0xd9, 0x8f, 0x00, 0xb2, 0x04,
        0xe9, 0x80, 0x09, 0x98, 0xec, 0xf8, 0x42, 0x7e] := by
  decide

/-! ## The shape of the traces -/

theorem blockMsgs_append (a b : List Event) : blockMsgs (a ++ b) = blockMsgs a ++ blockMsgs b := by
  induction a with
  | nil => rfl
  | cons e t ih => cases e <;> simp [blockMsgs, ih]

theorem cycleMsgs_append (a b : List Event) : cycleMsgs (a ++ b) = cycleMsgs a ++ cycleMsgs b := by
  induction a with
  | nil => rfl
  | cons e t ih => cases e <;> simp [cycleMsgs, ih]

theorem sends_append (a b : List Event) : sends (a ++ b) = sends a ++ sends b := by
  induction a with
  | nil => rfl
  | cons e t ih => cases e <;> simp [sends, ih]

theorem pairsOf_append (uid : Nat) (a b : List blockInput) :
    pairsOf uid (a ++ b) = pairsOf uid a ++ pairsOf uid b := by
  induction a with
  | nil => rfl
  | cons e t ih => simp [pairsOf, ih]

theorem blockMsgs_pairsOf (uid : Nat) (bis : List blockInput) :
    blockMsgs (pairsOf uid bis) = bis := by
  induction bis with
  | nil => rfl
  | cons e t ih => simp [pairsOf, blockMsgs, ih]

theorem cycleMsgs_pairsOf (uid : Nat) (bis : List blockInput) :
    cycleMsgs (pairsOf uid bis) = List.replicate bis.length uid := by
  induction bis with
  | nil => rfl
  | cons e t ih => simp [pairsOf, cycleMsgs, ih, List.replicate_succ]

theorem sends_pairsOf (uid : Nat) (bis : List blockInput) :
    sends (pairsOf uid bis) = pairsOf uid bis := by
  induction bis with
  | nil => rfl
  | cons e t ih => simp [pairsOf, sends, ih]

theorem cycleMsgs_sends (evs : List Event) : cycleMsgs (sends evs) = cycleMsgs evs := by
  induction evs with
  | nil => rfl
  | cons e t ih => cases e <;> simp [sends, cycleMsgs, ih]

theorem pairTrace_nil (uid : Nat) : PairTrace uid [] :=
  ⟨rfl, fun _ h => by cases h⟩

theorem pairTrace_append {uid : Nat} {a b : List Event} (ha : PairTrace uid a)
    (hb : PairTrace uid b) : PairTrace uid (a ++ b) := by
  refine ⟨?_, ?_⟩
  · rw [sends_append, blockMsgs_append, pairsOf_append, ha.1, hb.1]
  · intro bi hbi
    rw [blockMsgs_append] at hbi
    rcases List.mem_append.mp hbi with h | h
    · exact ha.2 bi h
    · exact hb.2 bi h

theorem pairTrace_pairsOf (uid : Nat) (bis : List blockInput) (h : ∀ bi ∈ bis, bi.uid = uid) :
    PairTrace uid (pairsOf uid bis) := by
  refine ⟨?_, ?_⟩
  · rw [sends_pairsOf, blockMsgs_pairsOf]
  · rw [blockMsgs_pairsOf]
    exact h

theorem pairTrace_close (uid : Nat) : PairTrace uid [Event.closeBlocksCh] :=
  ⟨rfl, fun _ h => by cases h⟩

/-- In a trace of pairs there are as many cycle notifications as block messages, and
every one carries the uid. -/
theorem PairTrace.cycles {uid : Nat} {evs : List Event} (h : PairTrace uid evs) :
    cycleMsgs evs = List.replicate (blockMsgs evs).length uid := by
  rw [← cycleMsgs_sends, h.1, cycleMsgs_pairsOf]

/-- The sends of `sendBlock` are one pair, or none when the channel is nil. -/
theorem sendBlock_pairs (d : md5Digest) (bi : blockInput) (h : bi.uid = d.uid) :
    PairTrace d.uid (sendBlock d bi).sent ∧ (sendBlock d bi).d = d := by
  unfold sendBlock
  split_ifs
  · exact ⟨pairTrace_pairsOf d.uid [bi] (by simpa using h), rfl⟩
  · exact ⟨pairTrace_nil _, rfl⟩

theorem andThen_pairs {α β : Type} {uid : Nat} (s : Step α) (k : md5Digest → α → Step β)
    (hs : PairTrace uid s.sent) (hd : s.d.uid = uid)
    (hk : ∀ d v, d.uid = uid → PairTrace uid (k d v).sent ∧ (k d v).d.uid = uid) :
    PairTrace uid (s.andThen k).sent ∧ (s.andThen k).d.uid = uid := by
  unfold Step.andThen
  cases hr : s.ret with
  | returned v => exact ⟨pairTrace_append hs (hk s.d v hd).1, (hk s.d v hd).2⟩
  | panicked m => exact ⟨hs, hd⟩
  | blocked => exact ⟨hs, hd⟩

theorem sendBlock_andThen_pairs {β : Type} (d : md5Digest) (bi : blockInput)
    (k : md5Digest → Unit → Step β) (h : bi.uid = d.uid)
    (hk : ∀ e v, e.uid = d.uid → PairTrace d.uid (k e v).sent ∧ (k e v).d.uid = d.uid) :
    PairTrace d.uid ((sendBlock d bi).andThen k).sent ∧ ((sendBlock d bi).andThen k).d.uid = d.uid :=
  andThen_pairs _ k (sendBlock_pairs d bi h).1 (by rw [(sendBlock_pairs d bi h).2]) hk

theorem writeFill_pairs (d : md5Digest) (p : List Byte) :
    PairTrace d.uid (writeFill d p).sent ∧ (writeFill d p).d.uid = d.uid := by
  unfold writeFill
  dsimp only
  split_ifs
  · exact ⟨pairTrace_nil _, rfl⟩
  · refine sendBlock_andThen_pairs
      { d with x := (copyAt d.x d.nx p).1, nx := d.nx + (copyAt d.x d.nx p).2 } _ _ ?_ ?_
    · rfl
    · intro e _ he
      exact ⟨pairTrace_nil _, he⟩
  · exact ⟨pairTrace_nil _, rfl⟩
  · exact ⟨pairTrace_nil _, rfl⟩

theorem writeBulk_pairs (d : md5Digest) (p : List Byte) :
    PairTrace d.uid (writeBulk d p).sent ∧ (writeBulk d p).d.uid = d.uid := by
  unfold writeBulk
  dsimp only
  split_ifs
  · refine sendBlock_andThen_pairs d _ _ ?_ ?_
    · rfl
    · intro e _ he
      exact ⟨pairTrace_nil _, he⟩
  · exact ⟨pairTrace_nil _, rfl⟩

theorem writeRest_pairs (nn : Nat) (d : md5Digest) (p : List Byte) :
    PairTrace d.uid (writeRest nn d p).sent ∧ (writeRest nn d p).d.uid = d.uid := by
  unfold writeRest
  split_ifs
  · exact ⟨pairTrace_nil _, rfl⟩
  · exact ⟨pairTrace_nil _, rfl⟩

/-- The sends of `write` are pairs and `write` keeps the uid, on every handle. -/
theorem write_pairs (d : md5Digest) (p : List Byte) :
    PairTrace d.uid (write d p).sent ∧ (write d p).d.uid = d.uid := by
  rw [write_eq]
  refine @andThen_pairs _ _ d.uid _ _ (writeFill_pairs _ p).1 (writeFill_pairs _ p).2 ?_
  intro d1 p1 h1
  refine andThen_pairs _ _ (h1 ▸ (writeBulk_pairs d1 p1).1) ((writeBulk_pairs d1 p1).2.trans h1) ?_
  intro d2 p2 h2
  exact ⟨h2 ▸ (writeRest_pairs p.length d2 p2).1, (writeRest_pairs p.length d2 p2).2.trans h2⟩

theorem take_chunk_length_le (ibs : Nat) (p : List Byte) :
    (p.take (if ibs < p.length then ibs else p.length)).length ≤ ibs := by
  rw [List.length_take]
  split_ifs <;> omega

/-- A property of traces that holds of the sends of every `write` on a chunk of at most
`internalBlockSize` bytes, and that concatenation keeps, holds of the sends of the
loop; `I` is what the handles along the loop satisfy. -/
theorem WriteLoop_sent_induct (ibs : Nat) (I : md5Digest → Prop) (Q : List Event → Prop)
    (happ : ∀ a b, Q a → Q b → Q (a ++ b))
    (hstep : ∀ d c, I d → c.length ≤ ibs → Q (write d c).sent ∧ I (write d c).d) :
    ∀ (fuel : Nat) (d : md5Digest) (p : List Byte) (nn : Nat) (s : Step (Nat × Option String)),
      I d → WriteLoop ibs fuel d p nn = some s → Q s.sent ∧ I s.d := by
  intro fuel
  induction fuel with
  | zero =>
    intro d p nn s _ h
    rw [WriteLoop] at h
    cases h
  | succ f ih =>
    intro d p nn s hI h
    have hlen := take_chunk_length_le ibs p
    rw [WriteLoop] at h
    generalize (if ibs < p.length then ibs else p.length) = l at h hlen
    have hw := hstep d (p.take l) hI hlen
    split at h
    · by_cases hd : (p.drop l).length = 0
      · rw [if_pos hd] at h
        rw [← Option.some.inj h]
        exact hw
      · rw [if_neg hd] at h
        obtain ⟨t, ht, hst⟩ := Option.map_eq_some'.mp h
        have hrec := ih _ _ _ t hw.2 ht
        rw [← hst]
        exact ⟨happ _ _ hw.1 hrec.1, hrec.2⟩
    · rw [← Option.some.inj h]
      exact hw
    · rw [← Option.some.inj h]
      exact hw
    · rw [← Option.some.inj h]
      exact hw

/-- The sends of `Write` are pairs and `Write` keeps the uid, on every handle. -/
theorem Write_pairs (ibs : Nat) (d : md5Digest) (p : List Byte) (s : Step (Nat × Option String))
    (h : Write ibs d p = some s) : PairTrace d.uid s.sent ∧ s.d.uid = d.uid := by
  unfold Write at h
  split_ifs at h
  · rw [← Option.some.inj h]
    exact ⟨pairTrace_nil _, rfl⟩
  · exact WriteLoop_sent_induct ibs (fun e => e.uid = d.uid) (PairTrace d.uid)
      (fun _ _ ha hb => pairTrace_append ha hb)
      (fun e c he _ => ⟨he ▸ (write_pairs e c).1, (write_pairs e c).2.trans he⟩)
      _ d p 0 s rfl h

theorem Reset_pairs (d : md5Digest) : PairTrace d.uid (Reset d).sent ∧ (Reset d).d.uid = d.uid := by
  unfold Reset
  dsimp only
  split_ifs
  · exact ⟨pairTrace_nil _, rfl⟩
  · have h := sendBlock_pairs { d with nx := 0, len := 0 }
      { uid := d.uid, msg := [], reset := true, sumCh := false } rfl
    exact ⟨h.1, by rw [h.2]⟩

theorem Sum_pairs (d : md5Digest) (in_ : List Byte) (sum : sumResult) :
    PairTrace d.uid (Sum d in_ sum).sent ∧ (Sum d in_ sum).d.uid = d.uid := by
  refine ⟨?_, by rw [Sum_d]⟩
  unfold Sum
  split_ifs
  · exact pairTrace_nil _
  · exact pairTrace_nil _
  · exact pairTrace_nil _
  · exact pairTrace_nil _
  · refine (sendBlock_andThen_pairs d _ _ ?_ ?_).1
    · rfl
    · intro e _ he
      exact ⟨pairTrace_nil _, he⟩

theorem Close_pairs (d : md5Digest) : PairTrace d.uid (Close d).sent ∧ (Close d).d.uid = d.uid := by
  unfold Close
  split_ifs
  · exact ⟨pairTrace_close _, rfl⟩
  · exact ⟨pairTrace_nil _, rfl⟩

/-- Every call keeps the uid and adds pairs (and at most the closing of the channel)
to the trace. -/
theorem stepOp_pairs (ibs : Nat) (uid : Nat) (r r1 : Run) (op : Op) (hu : r.d.uid = uid)
    (ht : PairTrace uid r.sent) (h : stepOp ibs r op = some r1) :
    r1.d.uid = uid ∧ PairTrace uid r1.sent := by
  cases op with
  | write p =>
    obtain ⟨s, hs, hr⟩ := Option.map_eq_some'.mp h
    have hp := Write_pairs ibs r.d p s hs
    rw [← hr]
    exact ⟨hp.2.trans hu, pairTrace_append ht (hu ▸ hp.1)⟩
  | reset =>
    rw [← Option.some.inj h]
    exact ⟨(Reset_pairs r.d).2.trans hu, pairTrace_append ht (hu ▸ (Reset_pairs r.d).1)⟩
  | sum in_ sum =>
    rw [← Option.some.inj h]
    exact ⟨(Sum_pairs r.d in_ sum).2.trans hu,
      pairTrace_append ht (hu ▸ (Sum_pairs r.d in_ sum).1)⟩
  | close =>
    rw [← Option.some.inj h]
    exact ⟨(Close_pairs r.d).2.trans hu, pairTrace_append ht (hu ▸ (Close_pairs r.d).1)⟩

theorem runOps_pairs (ibs : Nat) (uid : Nat) :
    ∀ (ops : List Op) (r r1 : Run), r.d.uid = uid → PairTrace uid r.sent →
      runOps ibs r ops = some r1 → r1.d.uid = uid ∧ PairTrace uid r1.sent := by
  intro ops
  induction ops with
  | nil =>
    intro r r1 hu ht h
    rw [runOps] at h
    rw [← Option.some.inj h]
    exact ⟨hu, ht⟩
  | cons op ops ih =>
    intro r r1 hu ht h
    rw [runOps] at h
    split at h
    · rename_i r2 h2
      obtain ⟨hu2, ht2⟩ := stepOp_pairs ibs uid r r2 op hu ht h2
      exact ih r2 r1 hu2 ht2 h
    · cases h

/-! ## The invariant of a run -/

theorem stepOp_inv (ibs : Nat) (r r1 : Run) (op : Op) (hinv : RunInv r)
    (h : stepOp ibs r op = some r1) : RunInv r1 := by
  obtain ⟨hwf, hlen, pre, hpre, hmod⟩ := hinv
  cases op with
  | write p =>
    obtain ⟨s, hs, hr⟩ := Option.map_eq_some'.mp h
    rw [← hr]
    cases hopen : r.d.blocksCh with
    | true =>
      have hw := Write_wrote ibs r.d p s hopen hwf hs
      refine ⟨hw.wf, ?_, pre ++ payloads s.sent, ?_, ?_⟩
      · show s.d.len = _
        rw [hw.len, hlen]
        simp only [if_true, List.length_append, Nat.mod_add_mod]
      · show (if true = true then r.written ++ p else r.written) = _
        rw [if_pos rfl, List.append_assoc, hw.stream, ← List.append_assoc, ← hpre]
      · rw [List.length_append]
        have := payloads_length_mod hw.msgs
        omega
    | false =>
      rw [Write_closed ibs r.d p hopen] at hs
      rw [← Option.some.inj hs]
      exact ⟨hwf, hlen, pre, hpre, hmod⟩
  | reset =>
    rw [← Option.some.inj h]
    cases hopen : r.d.blocksCh with
    | true =>
      rw [Reset_open r.d hopen]
      exact ⟨⟨hwf.1, Nat.zero_lt_succ 63⟩, rfl, [], rfl, rfl⟩
    | false =>
      rw [Reset_closed r.d hopen]
      exact ⟨hwf, hlen, pre, hpre, hmod⟩
  | sum in_ sum =>
    rw [← Option.some.inj h]
    show RunInv ⟨(Sum r.d in_ sum).d, _, r.written⟩
    rw [Sum_d]
    exact ⟨hwf, hlen, pre, hpre, hmod⟩
  | close =>
    rw [← Option.some.inj h]
    unfold Close
    split_ifs
    · exact ⟨⟨hwf.1, hwf.2⟩, hlen, pre, hpre, hmod⟩
    · exact ⟨hwf, hlen, pre, hpre, hmod⟩

theorem runOps_inv (ibs : Nat) :
    ∀ (ops : List Op) (r r1 : Run), RunInv r → runOps ibs r ops = some r1 → RunInv r1 := by
  intro ops
  induction ops with
  | nil =>
    intro r r1 hinv h
    rw [runOps] at h
    rw [← Option.some.inj h]
    exact hinv
  | cons op ops ih =>
    intro r r1 hinv h
    rw [runOps] at h
    split at h
    · rename_i r2 h2
      exact ih r2 r1 (stepOp_inv ibs r r2 op hinv h2) h
    · cases h

theorem runInv_fresh (uid : Nat) : RunInv ⟨NewMd5 uid, [], []⟩ :=
  ⟨⟨by simp [NewMd5], Nat.zero_lt_succ 63⟩, rfl, [], rfl, rfl⟩

/-- The states of a run from a reachable state are reachable. -/
theorem runOps_reachable (ibs : Nat) :
    ∀ (ops : List Op) (r r1 : Run), Reachable ibs r.d → runOps ibs r ops = some r1 →
      Reachable ibs r1.d := by
  intro ops
  induction ops with
  | nil =>
    intro r r1 hr h
    rw [runOps] at h
    rw [← Option.some.inj h]
    exact hr
  | cons op ops ih =>
    intro r r1 hr h
    rw [runOps] at h
    split at h
    · rename_i r2 h2
      refine ih r2 r1 ?_ h
      cases op with
      | write p =>
        obtain ⟨s, hs, hr2⟩ := Option.map_eq_some'.mp h2
        rw [← hr2]
        exact Reachable.write p s hr hs
      | reset =>
        rw [← Option.some.inj h2]
        exact Reachable.reset hr
      | sum in_ sum =>
        rw [← Option.some.inj h2]
        exact Reachable.sum in_ sum hr
      | close =>
        rw [← Option.some.inj h2]
        exact Reachable.close hr
    · cases h

theorem andThen_no_panic {α β : Type} (s : Step α) (k : md5Digest → α → Step β)
    (hs : ∀ m, s.ret ≠ .panicked m) (hk : ∀ d v m, (k d v).ret ≠ .panicked m) :
    ∀ m, (s.andThen k).ret ≠ .panicked m := by
  intro m
  unfold Step.andThen
  cases hr : s.ret with
  | returned v => exact hk s.d v m
  | panicked m1 => exact absurd hr (hs m1)
  | blocked =>
    intro h
    cases h

theorem sendBlock_no_panic (d : md5Digest) (bi : blockInput) :
    ∀ m, (sendBlock d bi).ret ≠ .panicked m := by
  intro m h
  unfold sendBlock at h
  split_ifs at h

/-- With `nx` within the array no slice expression of `write` is out of range: `write`
does not panic. -/
theorem write_no_panic (d : md5Digest) (p : List Byte) (hnx : d.nx ≤ d.x.length) :
    ∀ m, (write d p).ret ≠ .panicked m := by
  rw [write_eq]
  apply andThen_no_panic
  · intro m
    unfold writeFill
    dsimp only
    have hlt : ¬ d.x.length < d.nx := Nat.not_lt.mpr hnx
    rw [if_neg hlt]
    split_ifs
    · exact andThen_no_panic _ _ (sendBlock_no_panic _ _) (fun _ _ _ h => by cases h) m
    · intro h
      cases h
    · intro h
      cases h
  · intro d1 p1
    apply andThen_no_panic
    · intro m
      unfold writeBulk
      dsimp only
      split_ifs
      · exact andThen_no_panic _ _ (sendBlock_no_panic _ _) (fun _ _ _ h => by cases h) m
      · intro h
        cases h
    · intro d2 p2 m h
      unfold writeRest at h
      split_ifs at h

/-! ## The messages of `write`, spelled out -/

theorem writeRest_sent (nn : Nat) (d : md5Digest) (p : List Byte) : (writeRest nn d p).sent = [] := by
  unfold writeRest
  split_ifs <;> rfl

theorem writeBulkRest_sent (nn : Nat) (d : md5Digest) (p : List Byte) (hopen : d.blocksCh = true) :
    ((writeBulk d p).andThen fun d2 p2 => writeRest nn d2 p2).sent
      = pairsOf d.uid (if 64 ≤ p.length then [⟨d.uid, p.take (p.length / 64 * 64), false, false⟩]
          else []) := by
  by_cases hp : 64 ≤ p.length
  · rw [writeBulk_ge d p hopen hp, andThen_returned, if_pos hp]
    show _ ++ (writeRest nn d _).sent = _
    rw [writeRest_sent]
    rfl
  · rw [writeBulk_lt d p (by omega), andThen_returned, if_neg hp]
    show _ ++ (writeRest nn d _).sent = _
    rw [writeRest_sent]
    rfl

/-- The sends of `write` on an open, well-formed handle are the messages `writeMsgs`,
each followed by its cycle notification. -/
theorem write_sent (d : md5Digest) (p : List Byte) (hopen : d.blocksCh = true)
    (hwf : WellFormed d) : (write d p).sent = pairsOf d.uid (writeMsgs d p) := by
  obtain ⟨hx, hnx⟩ := hwf
  simp only [BlockSize] at hx hnx
  rw [write_eq]
  by_cases h0 : d.nx = 0
  · have hn : ¬ (0 < d.nx ∧ 64 - d.nx ≤ p.length) := by omega
    have hn0 : ¬ 0 < d.nx := by omega
    rw [writeFill_empty { d with len := (d.len + p.length) % 2 ^ 64 } p (by exact h0),
      andThen_returned]
    dsimp only
    rw [writeBulkRest_sent _ _ _ (by exact hopen), writeMsgs, if_neg hn, if_neg hn0]
    rfl
  · have hpos : 0 < d.nx := Nat.pos_of_ne_zero h0
    by_cases hp : 64 - d.nx ≤ p.length
    · have hy : 0 < d.nx ∧ 64 - d.nx ≤ p.length := ⟨hpos, hp⟩
      rw [writeFill_full { d with len := (d.len + p.length) % 2 ^ 64 } p hopen hx hpos hnx hp,
        andThen_returned]
      dsimp only
      rw [writeBulkRest_sent _ _ _ (by exact hopen), writeMsgs, if_pos hy, if_pos hpos,
        pairsOf_append]
      rfl
    · have hlt : p.length < 64 - d.nx := by omega
      have hn : ¬ (0 < d.nx ∧ 64 - d.nx ≤ p.length) := by omega
      have hq : ¬ 64 ≤ (p.drop (64 - d.nx)).length := by
        rw [List.length_drop]
        omega
      rw [writeFill_short { d with len := (d.len + p.length) % 2 ^ 64 } p hx hpos hnx hlt,
        andThen_returned, writeBulk_lt _ [] (by simp), andThen_returned, writeRest_nil,
        writeMsgs, if_neg hn, if_pos hpos, if_neg hq]
      rfl

theorem writeMsgs_length_le (d : md5Digest) (p : List Byte) : (writeMsgs d p).length ≤ 2 := by
  unfold writeMsgs
  rw [List.length_append]
  split_ifs <;> simp

/-- No message of `write` is longer than `max(64, len(p))`. -/
theorem writeMsgs_bound (d : md5Digest) (p : List Byte) (hwf : WellFormed d) :
    ∀ bi ∈ writeMsgs d p, bi.msg.length ≤ max 64 p.length := by
  obtain ⟨hx, hnx⟩ := hwf
  simp only [BlockSize] at hx hnx
  intro bi hbi
  unfold writeMsgs at hbi
  rcases List.mem_append.mp hbi with h | h
  · split_ifs at h with hc
    · rw [List.mem_singleton] at h
      rw [h]
      simp only [List.length_append, List.length_take]
      omega
    · cases h
  · split_ifs at h with hc hq
    · rw [List.mem_singleton] at h
      rw [h]
      simp only [List.length_take, List.length_drop]
      omega
    · cases h
    · rw [List.mem_singleton] at h
      rw [h]
      simp only [List.length_take]
      omega
    · cases h

/-! ## Sizes and numbers of the data messages -/

/-- What `DataMsgs` says of the block messages of a trace. -/
theorem dataMsgs_blockMsgs {uid : Nat} {evs : List Event} (h : DataMsgs uid evs) :
    ∀ bi ∈ blockMsgs evs, bi.uid = uid ∧ bi.reset = false ∧ bi.sumCh = false ∧ bi.msg ≠ [] ∧
      bi.msg.length % BlockSize = 0 := by
  induction evs with
  | nil =>
    intro bi hbi
    cases hbi
  | cons e t ih =>
    have ht : DataMsgs uid t := fun e he => h e (List.mem_cons_of_mem _ he)
    intro bi hbi
    rcases h e (List.mem_cons_self _ _) with he | ⟨msg, he, h1, h2⟩
    · rw [he] at hbi
      exact ih ht bi hbi
    · rw [he] at hbi
      rcases List.mem_cons.mp hbi with hb | hb
      · rw [hb]
        exact ⟨rfl, rfl, rfl, h1, h2⟩
      · exact ih ht bi hb

/-- Every data message carries at least one block. -/
theorem dataMsgs_count {uid : Nat} {evs : List Event} (h : DataMsgs uid evs) :
    64 * (blockMsgs evs).length ≤ (payloads evs).length := by
  induction evs with
  | nil => exact Nat.le_refl _
  | cons e t ih =>
    have ht : DataMsgs uid t := fun e he => h e (List.mem_cons_of_mem _ he)
    have ih := ih ht
    rcases h e (List.mem_cons_self _ _) with he | ⟨msg, he, h1, h2⟩
    · rw [he]
      exact ih
    · rw [he]
      have hpos : 0 < msg.length := List.length_pos.mpr h1
      simp only [BlockSize] at h2
      simp only [blockMsgs, payloads, List.length_cons, List.length_append]
      omega

theorem dataMsgs_sends {uid : Nat} {evs : List Event} (h : DataMsgs uid evs) : sends evs = evs := by
  induction evs with
  | nil => rfl
  | cons e t ih =>
    have ht : DataMsgs uid t := fun e he => h e (List.mem_cons_of_mem _ he)
    rcases h e (List.mem_cons_self _ _) with he | ⟨msg, he, _, _⟩
    · rw [he]
      simp [sends, ih ht]
    · rw [he]
      simp [sends, ih ht]

theorem payloads_pairsOf_nil (uid : Nat) (evs : List Event) (h : blockMsgs evs = [])
    (hs : sends evs = pairsOf uid (blockMsgs evs)) (hd : sends evs = evs) : evs = [] := by
  rw [h] at hs
  rw [← hd, hs]
  rfl

/-- The payloads of a write are the whole blocks that the buffered bytes and the input
complete. -/
theorem Wrote.payload_length {d : md5Digest} {p : List Byte} {nn : Nat}
    {s : Step (Nat × Option String)} (h : Wrote d p nn s) (hwf : WellFormed d) :
    (payloads s.sent).length = 64 * ((d.nx + p.length) / 64) := by
  have hl := congrArg List.length h.stream
  have hn := h.nx_eq hwf
  obtain ⟨hx, hnx⟩ := hwf
  obtain ⟨hx1, hnx1⟩ := h.wf
  simp only [BlockSize] at hx hnx hx1 hnx1
  rw [List.length_append, List.length_append, List.length_take, List.length_take] at hl
  omega

/-- No data message of `Write` is longer than `max(64, internalBlockSize)`. -/
theorem Write_bound (ibs : Nat) (d : md5Digest) (p : List Byte) (s : Step (Nat × Option String))
    (hopen : d.blocksCh = true) (hwf : WellFormed d) (h : Write ibs d p = some s) :
    ∀ bi ∈ blockMsgs s.sent, bi.msg.length ≤ max 64 ibs := by
  rw [Write, hopen] at h
  refine (WriteLoop_sent_induct ibs (fun e => e.blocksCh = true ∧ WellFormed e)
    (fun evs => ∀ bi ∈ blockMsgs evs, bi.msg.length ≤ max 64 ibs) ?_ ?_
    _ d p 0 s ⟨hopen, hwf⟩ h).1
  · intro a b ha hb bi hbi
    rw [blockMsgs_append] at hbi
    rcases List.mem_append.mp hbi with h1 | h1
    · exact ha bi h1
    · exact hb bi h1
  · intro e c he hc
    have hw := write_spec e c he.1 he.2
    refine ⟨?_, hw.blocksCh, hw.wf⟩
    intro bi hbi
    rw [write_sent e c he.1 he.2, blockMsgs_pairsOf] at hbi
    have := writeMsgs_bound e c he.2 bi hbi
    omega

/-! ## The iterations of the loop of `Write` -/

theorem WriteLoopChunks_fst (ibs : Nat) :
    ∀ (fuel : Nat) (d : md5Digest) (p : List Byte) (nn : Nat),
      (WriteLoopChunks ibs fuel d p nn).map Prod.fst = WriteLoop ibs fuel d p nn := by
  intro fuel
  induction fuel with
  | zero =>
    intro d p nn
    rfl
  | succ f ih =>
    intro d p nn
    rw [WriteLoopChunks, WriteLoop]
    generalize (if ibs < p.length then ibs else p.length) = l
    split
    · by_cases hd : (p.drop l).length = 0
      · rw [if_pos hd, if_pos hd]
        rfl
      · rw [if_neg hd, if_neg hd, ← ih]
        cases WriteLoopChunks ibs f (write d (p.take l)).d (p.drop l) _ <;> rfl
    · rfl
    · rfl
    · rfl

/-- More fuel does not change what the loop returns. -/
theorem WriteLoop_fuel_mono (ibs : Nat) :
    ∀ (fuel : Nat) (d : md5Digest) (p : List Byte) (nn : Nat) (s : Step (Nat × Option String)),
      WriteLoop ibs fuel d p nn = some s → WriteLoop ibs (fuel + 1) d p nn = some s := by
  intro fuel
  induction fuel with
  | zero =>
    intro d p nn s h
    rw [WriteLoop] at h
    cases h
  | succ f ih =>
    intro d p nn s h
    rw [WriteLoop] at h ⊢
    generalize (if ibs < p.length then ibs else p.length) = l at h ⊢
    split
    · rename_i nnn hret
      rw [hret] at h
      dsimp only at h
      by_cases hd : (p.drop l).length = 0
      · rw [if_pos hd] at h ⊢
        exact h
      · rw [if_neg hd] at h ⊢
        obtain ⟨t, ht, hst⟩ := Option.map_eq_some'.mp h
        rw [ih _ _ _ t ht]
        exact congrArg some hst
    · rename_i nnn err hret
      rw [hret] at h
      exact h
    · rename_i m hret
      rw [hret] at h
      exact h
    · rename_i hret
      rw [hret] at h
      exact h

theorem WriteLoop_fuel_le (ibs : Nat) (f g : Nat) (hfg : f ≤ g) (d : md5Digest) (p : List Byte)
    (nn : Nat) (s : Step (Nat × Option String)) (h : WriteLoop ibs f d p nn = some s) :
    WriteLoop ibs g d p nn = some s := by
  induction hfg with
  | refl => exact h
  | step _ ih => exact WriteLoop_fuel_mono ibs _ d p nn s ih

theorem loopIterations_le (ibs n : Nat) (hibs : 1 ≤ ibs) (hn : n ≤ ibs) :
    loopIterations ibs n = 1 := by
  have h : (n + ibs - 1) / ibs < 2 := (Nat.div_lt_iff_lt_mul hibs).mpr (by omega)
  unfold loopIterations
  omega

theorem loopIterations_gt (ibs n : Nat) (hibs : 1 ≤ ibs) (hn : ibs < n) :
    loopIterations ibs n = loopIterations ibs (n - ibs) + 1 := by
  have h1 : n + ibs - 1 = (n - ibs + ibs - 1) + ibs := by omega
  have h2 : 1 ≤ (n - ibs + ibs - 1) / ibs := (Nat.le_div_iff_mul_le hibs).mpr (by omega)
  unfold loopIterations
  rw [h1, Nat.add_div_right _ hibs]
  omega

theorem loopIterations_le_succ (ibs n : Nat) (hibs : 1 ≤ ibs) : loopIterations ibs n ≤ n + 1 := by
  have h : (n + ibs - 1) / ibs < n + 1 := by
    apply (Nat.div_lt_iff_lt_mul hibs).mpr
    calc n + ibs - 1 < n + ibs := by omega
      _ ≤ n * ibs + ibs := Nat.add_le_add_right (Nat.le_mul_of_pos_right n hibs) ibs
      _ = (n + 1) * ibs := by rw [Nat.add_mul, Nat.one_mul]
  unfold loopIterations
  omega

/-- With as much fuel as `loopIterations` says the loop returns, after that many calls
of `write`, each on a chunk of at most `internalBlockSize` bytes, and the chunks in
order make up the input. -/
theorem WriteLoopChunks_enough (ibs : Nat) (hibs : 1 ≤ ibs) :
    ∀ (fuel : Nat) (d : md5Digest) (p : List Byte) (nn : Nat), d.blocksCh = true →
      WellFormed d → loopIterations ibs p.length ≤ fuel →
      ∃ s cs, WriteLoopChunks ibs fuel d p nn = some (s, cs) ∧
        cs.length = loopIterations ibs p.length ∧ (∀ c ∈ cs, c.length ≤ ibs) ∧
        cs.flatten = p := by
  intro fuel
  induction fuel with
  | zero =>
    intro d p nn _ _ h
    unfold loopIterations at h
    omega
  | succ f ih =>
    intro d p nn hopen hwf hfuel
    by_cases hlt : ibs < p.length
    · have hw := write_spec d (p.take ibs) hopen hwf
      have hit := loopIterations_gt ibs p.length hibs hlt
      have hd : ¬ (p.drop ibs).length = 0 := by
        rw [List.length_drop]
        omega
      have hdl : (p.drop ibs).length = p.length - ibs := List.length_drop _ _
      obtain ⟨t, cs, ht, hcl, hcb, hcf⟩ := ih (write d (p.take ibs)).d (p.drop ibs)
        (nn + (p.take ibs).length) hw.blocksCh hw.wf (by rw [hdl]; omega)
      rw [WriteLoopChunks, if_pos hlt, hw.ret]
      dsimp only
      rw [if_neg hd, ht]
      refine ⟨_, _, rfl, ?_, ?_, ?_⟩
      · rw [List.length_cons, hcl, hdl, hit]
      · intro c hc
        rcases List.mem_cons.mp hc with h | h
        · rw [h, List.length_take]
          omega
        · exact hcb c h
      · rw [List.flatten_cons, hcf, List.take_append_drop]
    · have hw := write_spec d (p.take p.length) hopen hwf
      have hit := loopIterations_le ibs p.length hibs (by omega)
      have hd : (p.drop p.length).length = 0 := by
        rw [List.length_drop]
        omega
      rw [WriteLoopChunks, if_neg hlt, hw.ret]
      dsimp only
      rw [if_pos hd]
      refine ⟨_, _, rfl, ?_, ?_, ?_⟩
      · rw [hit]
        rfl
      · intro c hc
        rw [List.mem_singleton] at hc
        rw [hc, List.length_take]
        omega
      · simp

/-- With less fuel than `loopIterations` says the loop has not left. -/
theorem WriteLoopChunks_short (ibs : Nat) (hibs : 1 ≤ ibs) :
    ∀ (fuel : Nat) (d : md5Digest) (p : List Byte) (nn : Nat), d.blocksCh = true →
      WellFormed d → fuel < loopIterations ibs p.length →
      WriteLoopChunks ibs fuel d p nn = none := by
  intro fuel
  induction fuel with
  | zero =>
    intro d p nn _ _ _
    rfl
  | succ f ih =>
    intro d p nn hopen hwf hfuel
    have hlt : ibs < p.length := by
      by_contra hn
      have := loopIterations_le ibs p.length hibs (by omega)
      omega
    have hw := write_spec d (p.take ibs) hopen hwf
    have hit := loopIterations_gt ibs p.length hibs hlt
    have hd : ¬ (p.drop ibs).length = 0 := by
      rw [List.length_drop]
      omega
    have hdl : (p.drop ibs).length = p.length - ibs := List.length_drop _ _
    rw [WriteLoopChunks, if_pos hlt, hw.ret]
    dsimp only
    rw [if_neg hd, ih _ _ _ hw.blocksCh hw.wf (by rw [hdl]; omega)]
    rfl

/-! ## The claims -/

/-- C1: on a freshly constructed handle `Write(m)` returns `(len(m), nil)` for every
byte sequence `m`; the following `Sum(nil)` sends one finalize message; the server lane,
which applies the block compression function from the MD5 initial state to the 64-byte
blocks of the payloads it receives for the stream in order, delivers the reference
digest of `m`; and `Sum` returns exactly these 16 bytes. -/
theorem fresh_write_sum_is_reference_digest (ibs : Nat) (hibs : 1 ≤ ibs) (uid : Nat)
    (m : List Byte) :
    ∃ s, Write ibs (NewMd5 uid) m = some s ∧ s.ret = .returned (m.length, none) ∧
      (∀ sum, (Sum s.d [] sum).sent
        = [Event.blocksCh ⟨uid, sumTrail s.d, false, true⟩, Event.cycleServer uid]) ∧
      serverLane uid md5Init
        (s.sent ++ [Event.blocksCh ⟨uid, sumTrail s.d, false, true⟩, Event.cycleServer uid])
        = some (md5Sum m) ∧
      (Sum s.d [] ⟨md5Sum m, md5Sum_length m⟩).ret = .returned (md5Sum m) ∧
      (md5Sum m).length = 16 := by
  have hfresh := (@Reachable.fresh ibs uid).buffer_inv
  obtain ⟨s, hs, hw⟩ := Write_spec ibs hibs (NewMd5 uid) m rfl hfresh.1
  have hinv := hw.keeps_inv hfresh.1 hfresh.2
  have huid : s.d.uid = uid := hw.uid
  have hstream : payloads s.sent ++ s.d.x.take s.d.nx = m := by
    simpa [NewMd5] using hw.stream
  have hlen : s.d.len = m.length % 2 ^ 64 := by
    simpa [NewMd5] using hw.len
  have hpad := stream_sumTrail s.d (payloads s.sent) m hstream hlen
  have hmod : (sumTrail s.d).length % 64 = 0 := by
    have h1 := md5Pad_length_mod m
    have h2 := payloads_length_mod hw.msgs
    rw [← hpad, List.length_append] at h1
    omega
  refine ⟨s, hs, hw.ret, ?_, ?_, ?_, md5Sum_length m⟩
  · intro sum
    rw [Sum_open s.d [] sum hw.blocksCh hw.wf hinv, huid]
  · rw [serverLane_data uid _ _ _ hw.msgs, serverLane_final _ _ _ _ hmod,
      ← md5Blocks_append _ _ _ (payloads_length_mod hw.msgs), hpad]
    rfl
  · rw [Sum_open s.d [] _ hw.blocksCh hw.wf hinv]
    rfl

/-- An instance: `internalBlockSize = 32768`, uid 1 and the input `abc`. -/
theorem fresh_write_sum_is_reference_digest_witness :
    1 ≤ 32768 ∧
    ∃ s, Write 32768 (NewMd5 1) [0x61, 0x62, 0x63] = some s ∧ s.ret = .returned (3, none) ∧
      (∀ sum, (Sum s.d [] sum).sent
        = [Event.blocksCh ⟨1, sumTrail s.d, false, true⟩, Event.cycleServer 1]) ∧
      serverLane 1 md5Init
        (s.sent ++ [Event.blocksCh ⟨1, sumTrail s.d, false, true⟩, Event.cycleServer 1])
        = some (md5Sum [0x61, 0x62, 0x63]) ∧
      (Sum s.d [] ⟨md5Sum [0x61, 0x62, 0x63], md5Sum_length [0x61, 0x62, 0x63]⟩).ret
        = .returned (md5Sum [0x61, 0x62, 0x63]) ∧
      (md5Sum [0x61, 0x62, 0x63]).length = 16 :=
  ⟨by decide, fresh_write_sum_is_reference_digest 32768 (by decide) 1 [0x61, 0x62, 0x63]⟩

/-- C2: after any run of `Write` calls on an open handle whose counters are zero (a
fresh handle, or one just `Reset`), the payloads of the data messages sent followed by
the payload of the message of `Sum` are the padded message of the total input `m`:
`m`, the byte `0x80`, fewer than 64 zero bytes that bring the length to 56 modulo 64,
and the eight little-endian bytes of `(8 * len(m)) mod 2^64`; `Sum` sends that tail as
one message with the completion channel, followed by one cycle notification. -/
theorem writes_then_sum_send_padded_message (ibs : Nat) (hibs : 1 ≤ ibs) (d0 : md5Digest)
    (hopen : d0.blocksCh = true) (hwf : WellFormed d0) (hnx : d0.nx = 0) (hlen : d0.len = 0)
    (ps : List (List Byte)) :
    ∃ d evs, Writes ibs d0 ps = some (d, evs) ∧ DataMsgs d0.uid evs ∧
      payloads evs ++ sumTrail d = md5Pad ps.flatten ∧
      (∀ in_ sum, (Sum d in_ sum).sent
        = [Event.blocksCh ⟨d0.uid, sumTrail d, false, true⟩, Event.cycleServer d0.uid]) ∧
      zeroPadLen ps.flatten.length < 64 ∧
      (ps.flatten.length + 1 + zeroPadLen ps.flatten.length) % 64 = 56 := by
  obtain ⟨d, evs, hs, hw⟩ := Writes_spec ibs hibs ps d0 hopen hwf (by rw [hlen]; decide)
  have hinv : d.nx = d.len % 64 := hw.keeps_inv hwf (by rw [hnx, hlen])
  have hstream : payloads evs ++ d.x.take d.nx = ps.flatten := by
    have h := hw.stream
    rw [hnx, List.take_zero, List.nil_append] at h
    exact h
  have hl : d.len = ps.flatten.length % 2 ^ 64 := by
    have h := hw.len
    rw [hlen, Nat.zero_add] at h
    exact h
  have huid : d.uid = d0.uid := hw.uid
  refine ⟨d, evs, hs, hw.msgs, stream_sumTrail d _ _ hstream hl, ?_,
    (zeroPadLen_spec _).1, (zeroPadLen_spec _).2⟩
  intro in_ sum
  rw [Sum_open d in_ sum hw.blocksCh hw.wf hinv, huid]

/-- An instance: a fresh handle and the two calls `Write(ab)`, `Write(c)`. -/
theorem writes_then_sum_send_padded_message_witness :
    1 ≤ 32768 ∧ (NewMd5 5).blocksCh = true ∧ WellFormed (NewMd5 5) ∧ (NewMd5 5).nx = 0 ∧
    (NewMd5 5).len = 0 ∧
    ∃ d evs, Writes 32768 (NewMd5 5) [[0x61, 0x62], [0x63]] = some (d, evs) ∧
      DataMsgs (NewMd5 5).uid evs ∧
      payloads evs ++ sumTrail d = md5Pad [[0x61, 0x62], [0x63]].flatten ∧
      (∀ in_ sum, (Sum d in_ sum).sent
        = [Event.blocksCh ⟨(NewMd5 5).uid, sumTrail d, false, true⟩,
            Event.cycleServer (NewMd5 5).uid]) ∧
      zeroPadLen [[0x61, 0x62], [0x63]].flatten.length < 64 ∧
      ([[0x61, 0x62], [0x63]].flatten.length + 1
        + zeroPadLen [[0x61, 0x62], [0x63]].flatten.length) % 64 = 56 :=
  ⟨by decide, rfl, by decide, rfl, rfl,
    writes_then_sum_send_padded_message 32768 (by decide) (NewMd5 5) rfl (by decide) rfl rfl
      [[0x61, 0x62], [0x63]]⟩

/-- C3: on an open handle `Write(a)` followed by `Write(b)`, and the single call
`Write(a ++ b)`, leave the same byte counter and the same buffered bytes (`nx` and
`x[:nx]`) and forward the same payload byte stream; a following `Sum` then sends the
same padded tail and returns the same, and the server lane delivers the same digest for
both traces. -/
theorem write_chunking_independent (ibs : Nat) (hibs : 1 ≤ ibs) (d : md5Digest)
    (hopen : d.blocksCh = true) (hwf : WellFormed d) (a b : List Byte) :
    ∃ s1 s2 s, Write ibs d a = some s1 ∧ Write ibs s1.d b = some s2 ∧
      Write ibs d (a ++ b) = some s ∧
      s2.d.len = s.d.len ∧ s2.d.nx = s.d.nx ∧ s2.d.x.take s2.d.nx = s.d.x.take s.d.nx ∧
      payloads (s1.sent ++ s2.sent) = payloads s.sent ∧
      sumTrail s2.d = sumTrail s.d ∧
      (∀ in_ sum, (Sum s2.d in_ sum).sent = (Sum s.d in_ sum).sent ∧
        (Sum s2.d in_ sum).ret = (Sum s.d in_ sum).ret) ∧
      (∀ acc in_ sum,
        serverLane d.uid acc (s1.sent ++ s2.sent ++ (Sum s2.d in_ sum).sent)
          = serverLane d.uid acc (s.sent ++ (Sum s.d in_ sum).sent)) := by
  obtain ⟨s1, h1, hw1⟩ := Write_spec ibs hibs d a hopen hwf
  obtain ⟨s2, h2, hw2⟩ := Write_spec ibs hibs s1.d b hw1.blocksCh hw1.wf
  obtain ⟨s, h, hw⟩ := Write_spec ibs hibs d (a ++ b) hopen hwf
  have hc := Wrote.trans hw1 hw2
  have hx2 : s2.d.x.length = 64 := hw2.wf.1
  have hx : s.d.x.length = 64 := hw.wf.1
  have hn2 : s2.d.nx < 64 := hw2.wf.2
  have hn : s.d.nx < 64 := hw.wf.2
  have hl2 : (s2.d.x.take s2.d.nx).length = s2.d.nx := by
    rw [List.length_take]
    omega
  have hl : (s.d.x.take s.d.nx).length = s.d.nx := by
    rw [List.length_take]
    omega
  have hcs : payloads (s1.sent ++ s2.sent) ++ s2.d.x.take s2.d.nx = d.x.take d.nx ++ (a ++ b) :=
    hc.stream
  have hcm : DataMsgs d.uid (s1.sent ++ s2.sent) := hc.msgs
  obtain ⟨e1, e2⟩ := split_unique (hcs.trans hw.stream.symm)
    (payloads_length_mod hcm) (payloads_length_mod hw.msgs) (by omega) (by omega)
  have hnx : s2.d.nx = s.d.nx := by
    have := congrArg List.length e2
    rw [hl2, hl] at this
    exact this
  have hsim : SameStream s2.d s.d :=
    ⟨hc.uid.trans hw.uid.symm, hw2.blocksCh.trans hw.blocksCh.symm, hnx,
      hc.len.trans hw.len.symm, e2⟩
  refine ⟨s1, s2, s, h1, h2, h, hsim.len, hnx, e2, e1, sumTrail_sim hsim,
    fun in_ sum => Sum_sim hsim (hx2.trans hx.symm) in_ sum, ?_⟩
  intro acc in_ sum
  rw [serverLane_data d.uid _ _ acc hcm, serverLane_data d.uid _ _ acc hw.msgs, e1,
    (Sum_sim hsim (hx2.trans hx.symm) in_ sum).1]

/-- An instance: a fresh handle, `a` the byte `a` and `b` the bytes `bc`. -/
theorem write_chunking_independent_witness :
    1 ≤ 32768 ∧ (NewMd5 2).blocksCh = true ∧ WellFormed (NewMd5 2) ∧
    ∃ s1 s2 s, Write 32768 (NewMd5 2) [0x61] = some s1 ∧ Write 32768 s1.d [0x62, 0x63] = some s2 ∧
      Write 32768 (NewMd5 2) ([0x61] ++ [0x62, 0x63]) = some s ∧
      s2.d.len = s.d.len ∧ s2.d.nx = s.d.nx ∧ s2.d.x.take s2.d.nx = s.d.x.take s.d.nx ∧
      payloads (s1.sent ++ s2.sent) = payloads s.sent ∧
      sumTrail s2.d = sumTrail s.d ∧
      (∀ in_ sum, (Sum s2.d in_ sum).sent = (Sum s.d in_ sum).sent ∧
        (Sum s2.d in_ sum).ret = (Sum s.d in_ sum).ret) ∧
      (∀ acc in_ sum,
        serverLane (NewMd5 2).uid acc (s1.sent ++ s2.sent ++ (Sum s2.d in_ sum).sent)
          = serverLane (NewMd5 2).uid acc (s.sent ++ (Sum s.d in_ sum).sent)) :=
  ⟨by decide, rfl, by decide,
    write_chunking_independent 32768 (by decide) (NewMd5 2) rfl (by decide) [0x61] [0x62, 0x63]⟩

/-- C4: on an open handle, after `Write(X)`, `Reset` sets `nx` and `len` to 0 and sends
exactly one message, with `reset = true` and no payload; the messages that `Write(Y)`
and `Sum` send afterwards, and what they return, are those of a freshly constructed
handle with the same uid; and the server lane, whatever its accumulator was before,
delivers for the whole trace the reference digest of `Y` alone. -/
theorem reset_then_write_is_fresh (ibs : Nat) (hibs : 1 ≤ ibs) (d : md5Digest)
    (hopen : d.blocksCh = true) (hwf : WellFormed d) (X Y : List Byte) :
    ∃ s1 s2 f, Write ibs d X = some s1 ∧
      Reset s1.d = ⟨{ s1.d with nx := 0, len := 0 },
        [Event.blocksCh ⟨d.uid, [], true, false⟩, Event.cycleServer d.uid], .returned ()⟩ ∧
      Write ibs (Reset s1.d).d Y = some s2 ∧ Write ibs (NewMd5 d.uid) Y = some f ∧
      s2.sent = f.sent ∧ s2.ret = f.ret ∧
      (∀ in_ sum, (Sum s2.d in_ sum).sent = (Sum f.d in_ sum).sent ∧
        (Sum s2.d in_ sum).ret = (Sum f.d in_ sum).ret) ∧
      (∀ acc in_ sum,
        serverLane d.uid acc (s1.sent ++ (Reset s1.d).sent ++ s2.sent ++ (Sum s2.d in_ sum).sent)
          = some (md5Sum Y)) := by
  obtain ⟨s1, h1, hw1⟩ := Write_spec ibs hibs d X hopen hwf
  have hreset := Reset_open s1.d hw1.blocksCh
  have hfresh := (@Reachable.fresh ibs d.uid).buffer_inv
  have hwfr : WellFormed (Reset s1.d).d := by
    rw [hreset]
    exact ⟨hw1.wf.1, Nat.zero_lt_succ 63⟩
  have hopenr : (Reset s1.d).d.blocksCh = true := by
    rw [hreset]
    exact hw1.blocksCh
  have hsim : SameStream (Reset s1.d).d (NewMd5 d.uid) := by
    rw [hreset]
    exact ⟨hw1.uid, hw1.blocksCh, rfl, rfl, rfl⟩
  obtain ⟨s2, h2, hw2⟩ := Write_spec ibs hibs (Reset s1.d).d Y hopenr hwfr
  obtain ⟨f, hf, g1, g2, g3⟩ := Write_sim ibs _ _ Y s2 hsim hopenr hwfr hfresh.1 h2
  have hwf2 := Write_wrote ibs (NewMd5 d.uid) Y f rfl hfresh.1 hf
  have hx : s2.d.x.length = f.d.x.length := hw2.wf.1.trans hwf2.wf.1.symm
  have huidr : (Reset s1.d).d.uid = d.uid := by
    rw [hreset]
    exact hw1.uid
  have hinv2 : s2.d.nx = s2.d.len % 64 := by
    apply hw2.keeps_inv hwfr
    rw [hreset]
    exact rfl
  have hstream : payloads s2.sent ++ s2.d.x.take s2.d.nx = Y := by
    have h := hw2.stream
    rw [hreset] at h
    simpa using h
  have hlen : s2.d.len = Y.length % 2 ^ 64 := by
    have h := hw2.len
    rw [hreset] at h
    simpa using h
  have hmsgs : DataMsgs d.uid s2.sent := huidr ▸ hw2.msgs
  have hpad := stream_sumTrail s2.d (payloads s2.sent) Y hstream hlen
  have hmod : (sumTrail s2.d).length % 64 = 0 := by
    have k1 := md5Pad_length_mod Y
    have k2 := payloads_length_mod hmsgs
    rw [← hpad, List.length_append] at k1
    omega
  refine ⟨s1, s2, f, h1, ?_, h2, hf, g1, g2, fun in_ sum => Sum_sim g3 hx in_ sum, ?_⟩
  · rw [hreset]
    simp only [hw1.uid]
  · intro acc in_ sum
    rw [Sum_open s2.d in_ sum hw2.blocksCh hw2.wf hinv2, hw2.uid, huidr, hreset,
      List.append_assoc, List.append_assoc, serverLane_data d.uid _ _ acc hw1.msgs, hw1.uid]
    simp only [List.cons_append, List.nil_append]
    rw [serverLane_reset, serverLane_data d.uid _ _ md5Init hmsgs, serverLane_final _ _ _ _ hmod,
      ← md5Blocks_append _ _ _ (payloads_length_mod hmsgs), hpad]
    rfl

/-- An instance: a fresh handle, `X` the bytes `XY` and `Y` the bytes `abc`. -/
theorem reset_then_write_is_fresh_witness :
    1 ≤ 32768 ∧ (NewMd5 4).blocksCh = true ∧ WellFormed (NewMd5 4) ∧
    ∃ s1 s2 f, Write 32768 (NewMd5 4) [0x58, 0x59] = some s1 ∧
      Reset s1.d = ⟨{ s1.d with nx := 0, len := 0 },
        [Event.blocksCh ⟨(NewMd5 4).uid, [], true, false⟩, Event.cycleServer (NewMd5 4).uid],
        .returned ()⟩ ∧
      Write 32768 (Reset s1.d).d [0x61, 0x62, 0x63] = some s2 ∧
      Write 32768 (NewMd5 (NewMd5 4).uid) [0x61, 0x62, 0x63] = some f ∧
      s2.sent = f.sent ∧ s2.ret = f.ret ∧
      (∀ in_ sum, (Sum s2.d in_ sum).sent = (Sum f.d in_ sum).sent ∧
        (Sum s2.d in_ sum).ret = (Sum f.d in_ sum).ret) ∧
      (∀ acc in_ sum,
        serverLane (NewMd5 4).uid acc
            (s1.sent ++ (Reset s1.d).sent ++ s2.sent ++ (Sum s2.d in_ sum).sent)
          = some (md5Sum [0x61, 0x62, 0x63])) :=
  ⟨by decide, rfl, by decide,
    reset_then_write_is_fresh 32768 (by decide) (NewMd5 4) rfl (by decide) [0x58, 0x59]
      [0x61, 0x62, 0x63]⟩

/-- C5: in every state reachable from a fresh handle the padded tail built by `Sum` has
length 64 when `len mod 64 < 56` and 128 otherwise, a multiple of the block size; the
number of padding bytes sliced from `tmp` is between 1 and 64 and `nx` is within `x`;
so `Sum` returns on an open handle, and its only panic is the one of a closed handle. -/
theorem sum_tail_block_aligned (ibs : Nat) (d : md5Digest) (h : Reachable ibs d) :
    (sumTrail d).length = (if d.len % 64 < 56 then 64 else 128) ∧
      (sumTrail d).length % BlockSize = 0 ∧
      1 ≤ padCount d.len ∧ padCount d.len ≤ 64 ∧ d.nx ≤ d.x.length ∧
      ∀ in_ sum, (Sum d in_ sum).ret = .returned (in_ ++ sum.digest) ∨
        (d.blocksCh = false ∧ (Sum d in_ sum).ret = .panicked "sum after close") := by
  obtain ⟨hwf, hinv⟩ := h.buffer_inv
  have hlen := sumTrail_length_inv d hwf hinv
  have hnx : d.nx ≤ d.x.length := by
    rw [hwf.1]
    exact Nat.le_of_lt hwf.2
  refine ⟨hlen, ?_, (padCount_bounds _).1, (padCount_bounds _).2, hnx, ?_⟩
  · rw [hlen]
    simp only [BlockSize]
    split_ifs <;> decide
  · intro in_ sum
    cases hopen : d.blocksCh with
    | true =>
      left
      rw [Sum_open d in_ sum hopen hwf hinv]
    | false =>
      right
      rw [Sum_closed d in_ sum hopen]
      exact ⟨rfl, rfl⟩

/-- An instance: the freshly constructed handle with uid 3. -/
theorem sum_tail_block_aligned_witness :
    Reachable 32768 (NewMd5 3) ∧
    (sumTrail (NewMd5 3)).length = (if (NewMd5 3).len % 64 < 56 then 64 else 128) ∧
      (sumTrail (NewMd5 3)).length % BlockSize = 0 ∧
      1 ≤ padCount (NewMd5 3).len ∧ padCount (NewMd5 3).len ≤ 64 ∧
      (NewMd5 3).nx ≤ (NewMd5 3).x.length ∧
      ∀ in_ sum, (Sum (NewMd5 3) in_ sum).ret = .returned (in_ ++ sum.digest) ∨
        ((NewMd5 3).blocksCh = false ∧
          (Sum (NewMd5 3) in_ sum).ret = .panicked "sum after close") :=
  ⟨Reachable.fresh 3, sum_tail_block_aligned 32768 (NewMd5 3) (Reachable.fresh 3)⟩

/-- C6: `Write` on a closed handle, for every byte slice `p`, returns 0 and a non-nil
error, sends nothing (no message, no cycle notification) and leaves the handle, with
`nx`, `len` and `x`, as it was. -/
theorem write_after_close_fails (ibs uid : Nat) (x : List Byte) (nx len : Nat) (p : List Byte) :
    Write ibs ⟨uid, false, x, nx, len⟩ p
      = some ⟨⟨uid, false, x, nx, len⟩, [], .returned (0, some "md5Digest closed")⟩ :=
  Write_closed ibs _ p rfl

/-- C7: `Reset` and `Sum` on a closed handle panic with the handle unchanged and nothing
sent; on an open handle `Reset` returns and `Sum` does not end in the panic of the
closed check. -/
theorem reset_sum_after_close_panic (uid : Nat) (x : List Byte) (nx len : Nat)
    (in_ : List Byte) (sum : sumResult) :
    Reset ⟨uid, false, x, nx, len⟩ = ⟨⟨uid, false, x, nx, len⟩, [], .panicked "reset after close"⟩ ∧
      Sum ⟨uid, false, x, nx, len⟩ in_ sum
        = ⟨⟨uid, false, x, nx, len⟩, [], .panicked "sum after close"⟩ ∧
      (Reset ⟨uid, true, x, nx, len⟩).ret = .returned () ∧
      (Sum ⟨uid, true, x, nx, len⟩ in_ sum).ret ≠ .panicked "sum after close" := by
  refine ⟨Reset_closed _ rfl, Sum_closed _ _ _ rfl, ?_, Sum_open_ret_ne _ _ _ rfl⟩
  rw [Reset_open _ rfl]

/-- C8: the first `Close` closes the intake channel once and marks the handle closed,
with `uid`, `x`, `nx` and `len` untouched; `Close` on a closed handle returns without a
panic, closes nothing and changes nothing; so a second `Close` leaves the handle as the
first one did. -/
theorem close_idempotent (uid : Nat) (x : List Byte) (nx len : Nat) (d : md5Digest) :
    Close ⟨uid, true, x, nx, len⟩
        = ⟨⟨uid, false, x, nx, len⟩, [Event.closeBlocksCh], .returned ()⟩ ∧
      Close ⟨uid, false, x, nx, len⟩ = ⟨⟨uid, false, x, nx, len⟩, [], .returned ()⟩ ∧
      Close (Close d).d = ⟨(Close d).d, [], .returned ()⟩ ∧
      (Close d).ret = .returned () := by
  refine ⟨rfl, rfl, ?_, ?_⟩
  · cases hopen : d.blocksCh with
    | true => simp [Close, hopen]
    | false => simp [Close, hopen]
  · unfold Close
    split_ifs <;> rfl

/-- C9: `Sum` leaves the handle as it was (`uid`, `x`, `nx`, `len` and the channel), for
every handle and every argument; so a second `Sum` is the same call as the first and
sends the same padded tail, and a `Write` after `Sum` is the same call as without it. -/
theorem sum_does_not_mutate (d : md5Digest) (in_ : List Byte) (sum : sumResult) :
    (Sum d in_ sum).d = d ∧
      (∀ in2 sum2, Sum (Sum d in_ sum).d in2 sum2 = Sum d in2 sum2 ∧
        (Sum (Sum d in_ sum).d in2 sum2).sent = (Sum d in_ sum).sent) ∧
      (∀ ibs p, Write ibs (Sum d in_ sum).d p = Write ibs d p) := by
  refine ⟨Sum_d d in_ sum, fun in2 sum2 => ⟨by rw [Sum_d], ?_⟩, fun ibs p => by rw [Sum_d]⟩
  rw [Sum_d]
  exact Sum_sent d in2 in_ sum2 sum

/-- C10: on an open handle in a reachable state `Sum(in)` returns `in` followed by the
digest the server delivered: the result has length `len(in) + Size`, its first
`len(in)` bytes are `in` and the 16 bytes after them are the delivered digest. -/
theorem sum_appends_delivered_digest (ibs : Nat) (d : md5Digest) (h : Reachable ibs d)
    (hopen : d.blocksCh = true) (in_ : List Byte) (sum : sumResult) :
    ∃ result, (Sum d in_ sum).ret = .returned result ∧ result = in_ ++ sum.digest ∧
      result.length = in_.length + Size ∧ result.take in_.length = in_ ∧
      result.drop in_.length = sum.digest ∧ sum.digest.length = 16 := by
  obtain ⟨hwf, hinv⟩ := h.buffer_inv
  refine ⟨in_ ++ sum.digest, ?_, rfl, ?_, List.take_left _ _, List.drop_left _ _, sum.size_eq⟩
  · rw [Sum_open d in_ sum hopen hwf hinv]
  · rw [List.length_append, sum.size_eq]

/-- An instance: a fresh handle, `in` of two bytes, and the digest of the empty input
as the delivered value. -/
theorem sum_appends_delivered_digest_witness :
    Reachable 32768 (NewMd5 6) ∧ (NewMd5 6).blocksCh = true ∧
    ∃ result, (Sum (NewMd5 6) [0x01, 0x02] ⟨md5Sum [], md5Sum_length []⟩).ret = .returned result ∧
      result = [0x01, 0x02] ++ (⟨md5Sum [], md5Sum_length []⟩ : sumResult).digest ∧
      result.length = [(0x01 : Byte), 0x02].length + Size ∧
      result.take [(0x01 : Byte), 0x02].length = [0x01, 0x02] ∧
      result.drop [(0x01 : Byte), 0x02].length = (⟨md5Sum [], md5Sum_length []⟩ : sumResult).digest ∧
      (⟨md5Sum [], md5Sum_length []⟩ : sumResult).digest.length = 16 :=
  ⟨Reachable.fresh 6, rfl,
    sum_appends_delivered_digest 32768 (NewMd5 6) (Reachable.fresh 6) rfl [0x01, 0x02]
      ⟨md5Sum [], md5Sum_length []⟩⟩

/-- C11: on an open handle `Write(p)` returns `nn = len(p)` and a nil error and advances
the byte counter by `len(p)` modulo `2^64`, for every `internalBlockSize ≥ 1`, that is
whatever the number of internal chunks is. -/
theorem write_returns_length (ibs : Nat) (hibs : 1 ≤ ibs) (d : md5Digest)
    (hopen : d.blocksCh = true) (hwf : WellFormed d) (p : List Byte) :
    ∃ s, Write ibs d p = some s ∧ s.ret = .returned (p.length, none) ∧
      s.d.len = (d.len + p.length) % 2 ^ 64 := by
  obtain ⟨s, hs, hw⟩ := Write_spec ibs hibs d p hopen hwf
  exact ⟨s, hs, hw.ret, hw.len⟩

/-- An instance: chunks of 2 bytes, a fresh handle and an input of five bytes. -/
theorem write_returns_length_witness :
    1 ≤ 2 ∧ (NewMd5 1).blocksCh = true ∧ WellFormed (NewMd5 1) ∧
    ∃ s, Write 2 (NewMd5 1) [0x61, 0x62, 0x63, 0x64, 0x65] = some s ∧
      s.ret = .returned ([(0x61 : Byte), 0x62, 0x63, 0x64, 0x65].length, none) ∧
      s.d.len = ((NewMd5 1).len + [(0x61 : Byte), 0x62, 0x63, 0x64, 0x65].length) % 2 ^ 64 :=
  ⟨by decide, rfl, by decide,
    write_returns_length 2 (by decide) (NewMd5 1) rfl (by decide) [0x61, 0x62, 0x63, 0x64, 0x65]⟩

/-- C13, as stated, fails: `Write` on a closed handle does not panic, it returns 0 and
a non-nil error. -/
theorem write_after_close_does_not_panic :
    Write 32768 ⟨1, false, List.replicate 64 0, 0, 0⟩ [0x61]
        = some ⟨⟨1, false, List.replicate 64 0, 0, 0⟩, [],
            .returned (0, some "md5Digest closed")⟩ ∧
      ¬ ∃ s msg, Write 32768 ⟨1, false, List.replicate 64 0, 0, 0⟩ [0x61] = some s ∧
          s.ret = .panicked msg := by
  refine ⟨Write_closed _ _ _ rfl, ?_⟩
  rintro ⟨s, msg, hs, hret⟩
  rw [Write_closed _ _ _ rfl] at hs
  rw [← Option.some.inj hs] at hret
  cases hret

/-- C13, amended: on a closed handle `Reset` and `Sum` abort with a panic, while `Write`
returns `(0, err)` with a non-nil error; all three leave the handle as it was and send
nothing. -/
theorem after_close_reset_sum_panic_write_errors (ibs uid : Nat) (x : List Byte)
    (nx len : Nat) (p in_ : List Byte) (sum : sumResult) :
    (Reset ⟨uid, false, x, nx, len⟩).ret = .panicked "reset after close" ∧
      (Sum ⟨uid, false, x, nx, len⟩ in_ sum).ret = .panicked "sum after close" ∧
      Write ibs ⟨uid, false, x, nx, len⟩ p
        = some ⟨⟨uid, false, x, nx, len⟩, [], .returned (0, some "md5Digest closed")⟩ ∧
      (Reset ⟨uid, false, x, nx, len⟩).d = ⟨uid, false, x, nx, len⟩ ∧
      (Reset ⟨uid, false, x, nx, len⟩).sent = [] ∧
      (Sum ⟨uid, false, x, nx, len⟩ in_ sum).d = ⟨uid, false, x, nx, len⟩ ∧
      (Sum ⟨uid, false, x, nx, len⟩ in_ sum).sent = [] := by
  rw [Reset_closed _ rfl, Sum_closed _ _ _ rfl]
  exact ⟨rfl, rfl, Write_closed _ _ _ rfl, rfl, rfl, rfl, rfl⟩

/-- C14: `Sum` on a freshly constructed handle, and on an open handle just `Reset`, sends
no data message and exactly one finalize message (with its cycle notification), whose
payload is one 64-byte block, `0x80` followed by 63 zero bytes; the server lane then
delivers `d41d8cd98f00b204e9800998ecf8427e`, the reference digest of the empty input. -/
theorem empty_input_digest (uid : Nat) (x : List Byte) (nx len : Nat) (in_ : List Byte)
    (sum : sumResult) (acc : md5State) :
    Sum (NewMd5 uid) in_ sum
        = ⟨NewMd5 uid,
            [Event.blocksCh ⟨uid, (0x80 : Byte) :: List.replicate 63 (0 : Byte), false, true⟩,
              Event.cycleServer uid],
            .returned (in_ ++ sum.digest)⟩ ∧
      Sum (Reset ⟨uid, true, x, nx, len⟩).d in_ sum
        = ⟨⟨uid, true, x, 0, 0⟩,
            [Event.blocksCh ⟨uid, (0x80 : Byte) :: List.replicate 63 (0 : Byte), false, true⟩,
              Event.cycleServer uid],
            .returned (in_ ++ sum.digest)⟩ ∧
      serverLane uid md5Init (Sum (NewMd5 uid) in_ sum).sent
        = some [0xd4, 0x1d, 0x8c, 0xd9, 0x8f, 0x00, 0xb2, 0x04,
            0xe9, 0x80, 0x09, 0x98, 0xec, 0xf8, 0x42, 0x7e] ∧
      serverLane uid acc ((Reset ⟨uid, true, x, nx, len⟩).sent
          ++ (Sum (Reset ⟨uid, true, x, nx, len⟩).d in_ sum).sent)
        = some [0xd4, 0x1d, 0x8c, 0xd9, 0x8f, 0x00, 0xb2, 0x04,
            0xe9, 0x80, 0x09, 0x98, 0xec, 0xf8, 0x42, 0x7e] ∧
      md5Sum [] = [0xd4, 0x1d, 0x8c, 0xd9, 0x8f, 0x00, 0xb2, 0x04,
            0xe9, 0x80, 0x09, 0x98, 0xec, 0xf8, 0x42, 0x7e] := by
  have hfresh : Sum (NewMd5 uid) in_ sum = _ := Sum_zero uid (List.replicate BlockSize 0) in_ sum
  have hreset := Reset_open ⟨uid, true, x, nx, len⟩ rfl
  have hfinal := serverLane_final uid md5Init ((0x80 : Byte) :: List.replicate 63 (0 : Byte))
    [Event.cycleServer uid] (by decide)
  refine ⟨hfresh, ?_, ?_, ?_, md5Sum_golden_empty⟩
  · rw [hreset]
    exact Sum_zero uid x in_ sum
  · rw [hfresh]
    exact hfinal.trans (congrArg some md5_empty_block)
  · rw [hreset]
    simp only []
    rw [Sum_zero uid x in_ sum]
    simp only [List.cons_append, List.nil_append]
    rw [serverLane_reset]
    exact hfinal.trans (congrArg some md5_empty_block)

/-- C15: after any sequence of `Write`, `Reset`, `Sum` and `Close` calls on a freshly
constructed handle, `nx < BlockSize`, `nx = len mod 64`, `len` is the number of bytes
written since construction or the last `Reset` modulo `2^64`, `x[:nx]` holds the last
`nx` bytes written, and `nx` is within the array `x`, so that `write` does not panic on
a slice expression. -/
theorem buffer_invariant (ibs uid : Nat) (ops : List Op) (r : Run)
    (h : runOps ibs ⟨NewMd5 uid, [], []⟩ ops = some r) :
    r.d.nx < BlockSize ∧ r.d.nx = r.d.len % 64 ∧ r.d.len = r.written.length % 2 ^ 64 ∧
      r.d.nx = r.written.length % 64 ∧
      r.d.x.take r.d.nx = r.written.drop (r.written.length - r.d.nx) ∧
      r.d.x.length = BlockSize ∧ r.d.nx ≤ r.d.x.length ∧
      ∀ p m, (write r.d p).ret ≠ .panicked m := by
  obtain ⟨hwf, hlen, pre, hpre, hmod⟩ := runOps_inv ibs ops _ r (runInv_fresh uid) h
  have hx : r.d.x.length = 64 := hwf.1
  have hnx : r.d.nx < 64 := hwf.2
  have hle : r.d.nx ≤ r.d.x.length := by omega
  have htl : (r.d.x.take r.d.nx).length = r.d.nx := by
    rw [List.length_take]
    omega
  have hwl : r.written.length = pre.length + r.d.nx := by
    rw [hpre, List.length_append, htl]
  have hnm : r.d.nx = r.written.length % 64 := by omega
  refine ⟨hwf.2, ?_, hlen, hnm, ?_, hwf.1, hle, fun p m => write_no_panic r.d p hle m⟩
  · rw [hlen, mod_two_pow_mod]
    exact hnm
  · have hsub : r.written.length - r.d.nx = pre.length := by omega
    rw [hsub]
    conv_rhs => rw [hpre]
    rw [List.drop_left]

/-- An instance: the calls `sampleOps` on a fresh handle end in `sampleRun`. -/
theorem buffer_invariant_witness :
    runOps 32768 ⟨NewMd5 1, [], []⟩ sampleOps = some sampleRun ∧
    (sampleRun.d.nx < BlockSize ∧ sampleRun.d.nx = sampleRun.d.len % 64 ∧
      sampleRun.d.len = sampleRun.written.length % 2 ^ 64 ∧
      sampleRun.d.nx = sampleRun.written.length % 64 ∧
      sampleRun.d.x.take sampleRun.d.nx
        = sampleRun.written.drop (sampleRun.written.length - sampleRun.d.nx) ∧
      sampleRun.d.x.length = BlockSize ∧ sampleRun.d.nx ≤ sampleRun.d.x.length ∧
      ∀ p m, (write sampleRun.d p).ret ≠ .panicked m) :=
  ⟨by decide, buffer_invariant 32768 1 sampleOps sampleRun (by decide)⟩

/-- C17: after any sequence of `Write`, `Reset`, `Sum` and `Close` calls on a handle, the
sends of the trace are pairs: each block message carries the uid of the handle and is
followed by exactly one cycle notification with that uid, so there are as many cycle
notifications as block messages; and the handle still has its uid. -/
theorem sends_are_pairs (ibs : Nat) (d0 : md5Digest) (ops : List Op) (r : Run)
    (h : runOps ibs ⟨d0, [], []⟩ ops = some r) :
    r.d.uid = d0.uid ∧ sends r.sent = pairsOf d0.uid (blockMsgs r.sent) ∧
      (∀ bi ∈ blockMsgs r.sent, bi.uid = d0.uid) ∧
      cycleMsgs r.sent = List.replicate (blockMsgs r.sent).length d0.uid ∧
      (cycleMsgs r.sent).length = (blockMsgs r.sent).length := by
  obtain ⟨hu, ht⟩ := runOps_pairs ibs d0.uid ops ⟨d0, [], []⟩ r rfl (pairTrace_nil _) h
  refine ⟨hu, ht.1, ht.2, ht.cycles, ?_⟩
  rw [ht.cycles, List.length_replicate]

/-- An instance: the calls `sampleOps` on a fresh handle end in `sampleRun`. -/
theorem sends_are_pairs_witness :
    runOps 32768 ⟨NewMd5 1, [], []⟩ sampleOps = some sampleRun ∧
    (sampleRun.d.uid = (NewMd5 1).uid ∧
      sends sampleRun.sent = pairsOf (NewMd5 1).uid (blockMsgs sampleRun.sent) ∧
      (∀ bi ∈ blockMsgs sampleRun.sent, bi.uid = (NewMd5 1).uid) ∧
      cycleMsgs sampleRun.sent
        = List.replicate (blockMsgs sampleRun.sent).length (NewMd5 1).uid ∧
      (cycleMsgs sampleRun.sent).length = (blockMsgs sampleRun.sent).length) :=
  ⟨by decide, sends_are_pairs 32768 (NewMd5 1) sampleOps sampleRun (by decide)⟩

set_option maxRecDepth 1000000 in
/-- C16, as stated, fails: `Write` of 128 bytes on a fresh handle completes two blocks
and sends one data message, whose payload is the 128 bytes and not one 64-byte block. -/
theorem write_sends_multi_block_message :
    Write 32768 (NewMd5 1) (List.replicate 128 0x61)
        = some ⟨⟨1, true, List.replicate 64 0, 0, 128⟩,
            [Event.blocksCh ⟨1, List.replicate 128 0x61, false, false⟩, Event.cycleServer 1],
            .returned (128, none)⟩ ∧
      ¬ (∀ s, Write 32768 (NewMd5 1) (List.replicate 128 0x61) = some s →
          ∀ bi ∈ blockMsgs s.sent, bi.msg.length = 64) ∧
      ¬ (∀ s, Write 32768 (NewMd5 1) (List.replicate 128 0x61) = some s →
          (blockMsgs s.sent).length = ((NewMd5 1).nx + 128) / 64) := by
  have h : Write 32768 (NewMd5 1) (List.replicate 128 0x61)
      = some ⟨⟨1, true, List.replicate 64 0, 0, 128⟩,
          [Event.blocksCh ⟨1, List.replicate 128 0x61, false, false⟩, Event.cycleServer 1],
          .returned (128, none)⟩ := by
    decide
  refine ⟨h, ?_, ?_⟩
  · intro hall
    have h1 := hall _ h ⟨1, List.replicate 128 0x61, false, false⟩ (List.mem_cons_self _ _)
    revert h1
    decide
  · intro hall
    have h2 := hall _ h
    revert h2
    decide

/-- C16, amended: every data message that `Write` sends on an open handle is a data
message of the handle (no reset marker, no completion channel) whose payload is not
empty and consists of whole 64-byte blocks; a `Write` that completes `k` blocks sends
payloads of `64 * k` bytes in all, in at most `k` data messages, and in at least one
when `k ≥ 1`. -/
theorem write_messages_are_whole_blocks (ibs : Nat) (hibs : 1 ≤ ibs) (d : md5Digest)
    (hopen : d.blocksCh = true) (hwf : WellFormed d) (p : List Byte) :
    ∃ s, Write ibs d p = some s ∧
      (∀ bi ∈ blockMsgs s.sent, bi.uid = d.uid ∧ bi.reset = false ∧ bi.sumCh = false ∧
        bi.msg ≠ [] ∧ bi.msg.length % BlockSize = 0) ∧
      (payloads s.sent).length = BlockSize * ((d.nx + p.length) / BlockSize) ∧
      (blockMsgs s.sent).length ≤ (d.nx + p.length) / BlockSize ∧
      ((d.nx + p.length) / BlockSize = 0 ∨ 1 ≤ (blockMsgs s.sent).length) := by
  obtain ⟨s, hs, hw⟩ := Write_spec ibs hibs d p hopen hwf
  have hlen := hw.payload_length hwf
  have hcount := dataMsgs_count hw.msgs
  refine ⟨s, hs, dataMsgs_blockMsgs hw.msgs, hlen, ?_, ?_⟩
  · simp only [BlockSize]
    omega
  · simp only [BlockSize]
    by_cases hk : (d.nx + p.length) / 64 = 0
    · exact Or.inl hk
    · right
      cases hb : blockMsgs s.sent with
      | nil =>
        have hp : payloads s.sent = [] := by
          have hd := dataMsgs_sends hw.msgs
          have hpt := (Write_pairs ibs d p s hs).1.1
          rw [payloads_pairsOf_nil d.uid s.sent hb hpt hd]
          rfl
        rw [hp, List.length_nil] at hlen
        omega
      | cons b t => simp

/-- An instance: a fresh handle and an input of 130 bytes. -/
theorem write_messages_are_whole_blocks_witness :
    1 ≤ 32768 ∧ (NewMd5 1).blocksCh = true ∧ WellFormed (NewMd5 1) ∧
    ∃ s, Write 32768 (NewMd5 1) (List.replicate 130 0x61) = some s ∧
      (∀ bi ∈ blockMsgs s.sent, bi.uid = (NewMd5 1).uid ∧ bi.reset = false ∧ bi.sumCh = false ∧
        bi.msg ≠ [] ∧ bi.msg.length % BlockSize = 0) ∧
      (payloads s.sent).length
        = BlockSize * (((NewMd5 1).nx + (List.replicate 130 (0x61 : Byte)).length) / BlockSize) ∧
      (blockMsgs s.sent).length
        ≤ ((NewMd5 1).nx + (List.replicate 130 (0x61 : Byte)).length) / BlockSize ∧
      (((NewMd5 1).nx + (List.replicate 130 (0x61 : Byte)).length) / BlockSize = 0 ∨
        1 ≤ (blockMsgs s.sent).length) :=
  ⟨by decide, rfl, by decide,
    write_messages_are_whole_blocks 32768 (by decide) (NewMd5 1) rfl (by decide)
      (List.replicate 130 0x61)⟩

/-- C18: every data message that `Write` sends on an open handle has a non-empty payload
whose length is a multiple of `BlockSize` and at most `max(BlockSize,
internalBlockSize)`; one call of `write` (on an open handle `e`, with any chunk `c`)
sends at most two messages; and a `Write` of fewer bytes than complete a block sends
nothing. -/
theorem write_message_bounds (ibs : Nat) (hibs : 1 ≤ ibs) (d : md5Digest)
    (hopen : d.blocksCh = true) (hwf : WellFormed d) (p : List Byte) (e : md5Digest)
    (heopen : e.blocksCh = true) (hewf : WellFormed e) (c : List Byte) :
    ∃ s, Write ibs d p = some s ∧
      (∀ bi ∈ blockMsgs s.sent, bi.msg ≠ [] ∧ bi.msg.length % BlockSize = 0 ∧
        bi.msg.length ≤ max BlockSize ibs) ∧
      (BlockSize ≤ d.nx + p.length ∨ s.sent = []) ∧
      (blockMsgs (write e c).sent).length ≤ 2 ∧
      (write e c).sent = pairsOf e.uid (writeMsgs e c) := by
  obtain ⟨s, hs, hw⟩ := Write_spec ibs hibs d p hopen hwf
  have hlen := hw.payload_length hwf
  have hcount := dataMsgs_count hw.msgs
  have hb := Write_bound ibs d p s hopen hwf hs
  refine ⟨s, hs, ?_, ?_, ?_, write_sent e c heopen hewf⟩
  · intro bi hbi
    have h1 := dataMsgs_blockMsgs hw.msgs bi hbi
    exact ⟨h1.2.2.2.1, h1.2.2.2.2, hb bi hbi⟩
  · simp only [BlockSize]
    by_cases hk : 64 ≤ d.nx + p.length
    · exact Or.inl hk
    · right
      have hz : (blockMsgs s.sent).length = 0 := by omega
      exact payloads_pairsOf_nil d.uid s.sent (List.length_eq_zero.mp hz)
        (Write_pairs ibs d p s hs).1.1 (dataMsgs_sends hw.msgs)
  · rw [write_sent e c heopen hewf, blockMsgs_pairsOf]
    exact writeMsgs_length_le e c

/-- An instance: chunks of 100 bytes, an input of 300 bytes on a fresh handle, and for
the single `write` a handle with 60 buffered bytes and a chunk of 100 bytes. -/
theorem write_message_bounds_witness :
    1 ≤ 100 ∧ (NewMd5 1).blocksCh = true ∧ WellFormed (NewMd5 1) ∧
    (⟨2, true, List.replicate 64 0x62, 60, 60⟩ : md5Digest).blocksCh = true ∧
    WellFormed ⟨2, true, List.replicate 64 0x62, 60, 60⟩ ∧
    ∃ s, Write 100 (NewMd5 1) (List.replicate 300 0x61) = some s ∧
      (∀ bi ∈ blockMsgs s.sent, bi.msg ≠ [] ∧ bi.msg.length % BlockSize = 0 ∧
        bi.msg.length ≤ max BlockSize 100) ∧
      (BlockSize ≤ (NewMd5 1).nx + (List.replicate 300 (0x61 : Byte)).length ∨ s.sent = []) ∧
      (blockMsgs (write ⟨2, true, List.replicate 64 0x62, 60, 60⟩
        (List.replicate 100 0x61)).sent).length ≤ 2 ∧
      (write ⟨2, true, List.replicate 64 0x62, 60, 60⟩ (List.replicate 100 0x61)).sent
        = pairsOf (⟨2, true, List.replicate 64 0x62, 60, 60⟩ : md5Digest).uid
            (writeMsgs ⟨2, true, List.replicate 64 0x62, 60, 60⟩ (List.replicate 100 0x61)) :=
  ⟨by decide, rfl, by decide, rfl, by decide,
    write_message_bounds 100 (by decide) (NewMd5 1) rfl (by decide) (List.replicate 300 0x61)
      ⟨2, true, List.replicate 64 0x62, 60, 60⟩ rfl (by decide) (List.replicate 100 0x61)⟩

/-- C19: for `internalBlockSize ≥ 1` the loop of `Write` on an open handle returns for
every input `p`, after exactly `max(1, ceil(len(p) / internalBlockSize))` iterations:
that much fuel is enough and one unit less is not; each iteration passes a chunk of at
most `internalBlockSize` bytes to `write`, and the chunks in order make up `p`. -/
theorem write_loop_iterations (ibs : Nat) (hibs : 1 ≤ ibs) (d : md5Digest)
    (hopen : d.blocksCh = true) (hwf : WellFormed d) (p : List Byte) :
    ∃ s cs, WriteLoopChunks ibs (loopIterations ibs p.length) d p 0 = some (s, cs) ∧
      WriteLoop ibs (loopIterations ibs p.length) d p 0 = some s ∧
      WriteLoop ibs (loopIterations ibs p.length - 1) d p 0 = none ∧
      Write ibs d p = some s ∧
      cs.length = loopIterations ibs p.length ∧
      loopIterations ibs p.length = max 1 ((p.length + ibs - 1) / ibs) ∧
      (∀ c ∈ cs, c.length ≤ ibs) ∧ cs.flatten = p := by
  obtain ⟨s, cs, h, hl, hb, hf⟩ :=
    WriteLoopChunks_enough ibs hibs _ d p 0 hopen hwf (Nat.le_refl _)
  have hloop : WriteLoop ibs (loopIterations ibs p.length) d p 0 = some s := by
    rw [← WriteLoopChunks_fst, h]
    rfl
  have hpos : 1 ≤ loopIterations ibs p.length := by
    unfold loopIterations
    omega
  refine ⟨s, cs, h, hloop, ?_, ?_, hl, rfl, hb, hf⟩
  · rw [← WriteLoopChunks_fst,
      WriteLoopChunks_short ibs hibs _ d p 0 hopen hwf (by omega)]
    rfl
  · rw [Write, hopen]
    exact WriteLoop_fuel_le ibs _ _ (loopIterations_le_succ ibs p.length hibs) d p 0 s hloop

/-- An instance: chunks of 2 bytes and an input of five bytes on a fresh handle. -/
theorem write_loop_iterations_witness :
    1 ≤ 2 ∧ (NewMd5 1).blocksCh = true ∧ WellFormed (NewMd5 1) ∧
    ∃ s cs,
      WriteLoopChunks 2 (loopIterations 2 [(0x61 : Byte), 0x62, 0x63, 0x64, 0x65].length)
        (NewMd5 1) [0x61, 0x62, 0x63, 0x64, 0x65] 0 = some (s, cs) ∧
      WriteLoop 2 (loopIterations 2 [(0x61 : Byte), 0x62, 0x63, 0x64, 0x65].length) (NewMd5 1)
        [0x61, 0x62, 0x63, 0x64, 0x65] 0 = some s ∧
      WriteLoop 2 (loopIterations 2 [(0x61 : Byte), 0x62, 0x63, 0x64, 0x65].length - 1) (NewMd5 1)
        [0x61, 0x62, 0x63, 0x64, 0x65] 0 = none ∧
      Write 2 (NewMd5 1) [0x61, 0x62, 0x63, 0x64, 0x65] = some s ∧
      cs.length = loopIterations 2 [(0x61 : Byte), 0x62, 0x63, 0x64, 0x65].length ∧
      loopIterations 2 [(0x61 : Byte), 0x62, 0x63, 0x64, 0x65].length
        = max 1 (([(0x61 : Byte), 0x62, 0x63, 0x64, 0x65].length + 2 - 1) / 2) ∧
      (∀ c ∈ cs, c.length ≤ 2) ∧ cs.flatten = [0x61, 0x62, 0x63, 0x64, 0x65] :=
  ⟨by decide, rfl, by decide,
    write_loop_iterations 2 (by decide) (NewMd5 1) rfl (by decide)
      [0x61, 0x62, 0x63, 0x64, 0x65]⟩

end md5simd
